import Mathlib

/-!
Verification development for the async web crawler in gsearch.py.

The crawler (class AsyncWebCrawler) is embedded shallowly:

* URL handling (normalize_url, get_domain, is_valid_url) is modelled by an
  embedding of the CPython urllib.parse functions the source calls
  (urlsplit / urlparse / urlunsplit / urlunparse), over lists of characters.
  The embedding follows CPython 3.10/3.11 semantics: WHATWG stripping of
  leading C0-control-or-space characters, removal of tab, CR and LF anywhere,
  scheme detection, netloc splitting with the unbalanced-square-bracket
  ValueError, fragment and query splitting, and params splitting for schemes
  in uses_params.  Raising ValueError is modelled as Except.error.
* Pure library calls whose internals are out of scope (BeautifulSoup anchor
  extraction, urljoin) are oracles carried by a World structure; HTTP traffic
  is an oracle from URL to a fetch behaviour (response, timeout, an
  Exception-derived transport failure, or a BaseException-derived fault such
  as asyncio.CancelledError, which `except Exception` does not catch).
* The per-domain crawl loop of crawl_domain and the orchestration of
  crawl_multiple_domains are embedded as fuelled state-passing functions;
  asyncio.gather over distinct domains is sequentialised (the interleaving of
  distinct domain crawls only touches distinct keys of the shared
  dictionaries, see the independence theorems below).
-/

namespace GSearch

abbrev Chars := List Char

/-! ## Character classes used by urllib.parse -/

/-- A C0 control character or space: what urlsplit lstrips from the URL. -/
def isC0Space (c : Char) : Bool := c.toNat ≤ 32

/-- Tab, CR, LF: the unsafe bytes urlsplit removes anywhere in the URL. -/
def isUnsafeByte (c : Char) : Bool := c = '\t' || c = '\r' || c = '\n'

/-- Characters allowed in a URL scheme (after the leading alpha). -/
def isSchemeChar (c : Char) : Bool :=
  c.isAlpha || c.isDigit || c = '+' || c = '-' || c = '.'

/-- A netloc is delimited by the first of these after the double slash. -/
def isNetlocDelim (c : Char) : Bool := c = '/' || c = '?' || c = '#'

/-- urlsplit preprocessing: lstrip C0-or-space, then remove tab, CR, LF. -/
def cleanUrl (l : Chars) : Chars :=
  (l.dropWhile isC0Space).filter (fun c => !isUnsafeByte c)

/-! ## Small string helpers mirroring str.find / str.split / str.rfind -/

/-- Index of the first occurrence of a character, as str.find. -/
def findCharIdx (c : Char) : Chars → Option Nat
  | [] => none
  | x :: xs => if x = c then some 0 else (findCharIdx c xs).map (· + 1)

/-- s.split(c, 1): the part before the first occurrence of c and the part
after it; if c does not occur the second component is empty, matching the
way urlsplit leaves query and fragment empty. -/
def splitAtFirst (l : Chars) (c : Char) : Chars × Chars :=
  (l.takeWhile (fun x => x ≠ c), (l.dropWhile (fun x => x ≠ c)).drop 1)

/-- Split at the last slash: some (a, b) with l = a ++ [slash] ++ b and no
slash in b, none when there is no slash (mirrors str.rfind of a slash). -/
def splitLastSlash : Chars → Option (Chars × Chars)
  | [] => none
  | c :: rest =>
    match splitLastSlash rest with
    | some (a, b) => some (c :: a, b)
    | none => if c = '/' then some ([], rest) else none

/-! ## urlsplit / urlparse / urlunsplit -/

def headAlpha : Chars → Bool
  | [] => false
  | c :: _ => c.isAlpha

/-- Scheme detection of urlsplit: the text before the first colon is a scheme
when the colon is not first, the first character is an ASCII letter and every
character before the colon is a scheme character; the scheme is lowercased. -/
def splitScheme (url : Chars) : Chars × Chars :=
  match findCharIdx ':' url with
  | none => ([], url)
  | some i =>
    if 0 < i ∧ headAlpha url ∧ (url.take i).all isSchemeChar then
      ((url.take i).map Char.toLower, url.drop (i + 1))
    else ([], url)

/-- _splitnetloc: the netloc runs to the first slash, question mark or hash. -/
def splitNetloc (rest : Chars) : Chars × Chars :=
  (rest.takeWhile (fun c => !isNetlocDelim c),
   rest.dropWhile (fun c => !isNetlocDelim c))

structure SplitResult where
  scheme : Chars
  netloc : Chars
  path : Chars
  query : Chars
  fragment : Chars
deriving DecidableEq, Repr

/-- Embedding of urllib.parse.urlsplit.  The unbalanced-bracket check raises
ValueError, modelled as Except.error. -/
def urlsplitE (url0 : Chars) : Except String SplitResult :=
  let url1 := cleanUrl url0
  let sp := splitScheme url1
  let scheme := sp.1
  let url2 := sp.2
  if url2.take 2 = ['/', '/'] then
    let nl := splitNetloc (url2.drop 2)
    let netloc := nl.1
    let url3 := nl.2
    if (netloc.contains '[' && !netloc.contains ']') ||
        (netloc.contains ']' && !netloc.contains '[') then
      .error "Invalid IPv6 URL"
    else
      let fr := splitAtFirst url3 '#'
      let qu := splitAtFirst fr.1 '?'
      .ok ⟨scheme, netloc, qu.1, qu.2, fr.2⟩
  else
    let fr := splitAtFirst url2 '#'
    let qu := splitAtFirst fr.1 '?'
    .ok ⟨scheme, [], qu.1, qu.2, fr.2⟩

/-- The schemes for which urlparse separates params from the path
(urllib.parse.uses_params, CPython 3.11.6). -/
def uses_params : List Chars :=
  [[], "ftp".data, "hdl".data, "prospero".data, "http".data, "imap".data,
   "https".data, "shttp".data, "rtsp".data, "rtsps".data, "rtspu".data,
   "sip".data, "sips".data, "mms".data, "sftp".data, "tel".data]

/-- The schemes urlunsplit re-attaches a double slash for
(urllib.parse.uses_netloc, CPython 3.11.6). -/
def uses_netloc : List Chars :=
  [[], "ftp".data, "http".data, "gopher".data, "nntp".data, "telnet".data,
   "imap".data, "wais".data, "file".data, "mms".data, "https".data,
   "shttp".data, "snews".data, "prospero".data, "rtsp".data, "rtsps".data,
   "rtspu".data, "rsync".data, "svn".data, "svn+ssh".data, "sftp".data,
   "nfs".data, "git".data, "git+ssh".data, "ws".data, "wss".data]

/-- _splitparams: split params off the path.  With a slash in the path the
search for a semicolon starts at the last slash; only called by urlparse when
the path contains a semicolon. -/
def splitparams (p : Chars) : Chars × Chars :=
  match splitLastSlash p with
  | some (a, b) =>
    if b.contains ';' then
      let s := splitAtFirst b ';'
      (a ++ '/' :: s.1, s.2)
    else (p, [])
  | none => splitAtFirst p ';'

structure ParseResult where
  scheme : Chars
  netloc : Chars
  path : Chars
  params : Chars
  query : Chars
  fragment : Chars
deriving DecidableEq, Repr

/-- Embedding of urllib.parse.urlparse. -/
def urlparseE (url : Chars) : Except String ParseResult := do
  let r ← urlsplitE url
  if uses_params.contains r.scheme ∧ r.path.contains ';' then
    let s := splitparams r.path
    pure ⟨r.scheme, r.netloc, s.1, s.2, r.query, r.fragment⟩
  else
    pure ⟨r.scheme, r.netloc, r.path, [], r.query, r.fragment⟩

/-- urlunsplit restricted to (scheme, netloc, path, empty, empty): exactly the
call normalize_url makes through urlunparse.  The double slash is attached
when the netloc is non-empty, or when the scheme is a uses_netloc scheme and
the path does not already begin with a double slash (CPython 3.11.6). -/
def urlunsplit3 (scheme netloc path : Chars) : Chars :=
  let url :=
    if netloc ≠ [] ∨
        (scheme ≠ [] ∧ uses_netloc.contains scheme ∧ path.take 2 ≠ ['/', '/']) then
      let p1 := if path ≠ [] ∧ path.head? ≠ some '/' then '/' :: path else path
      '/' :: '/' :: (netloc ++ p1)
    else path
  if scheme ≠ [] then scheme ++ ':' :: url else url

/-! ## The three URL methods of AsyncWebCrawler -/

/-- Core of normalize_url over character lists. -/
def normList (url : Chars) : Except String Chars := do
  let r ← urlparseE url
  pure (urlunsplit3 r.scheme r.netloc r.path)

/-- AsyncWebCrawler.normalize_url: urlunparse of (scheme, netloc, path) with
params, query and fragment removed.  The source calls urlparse unprotected,
so a ValueError from urlsplit propagates (Except.error). -/
def normalize_url (url : String) : Except String String :=
  (normList url.data).map fun l => String.mk l

/-- AsyncWebCrawler.get_domain: urlparse(url).netloc.lower(), again with the
urlparse error propagating. -/
def get_domain (url : String) : Except String String :=
  (urlparseE url.data).map fun r => String.mk (r.netloc.map Char.toLower)

/-- The blocklist of path extensions in is_valid_url. -/
def skip_extensions : List String :=
  [".pdf", ".doc", ".docx", ".xls", ".xlsx", ".ppt", ".pptx", ".zip",
   ".rar", ".tar", ".gz", ".jpg", ".jpeg", ".png", ".gif", ".svg",
   ".mp4", ".avi", ".mp3", ".wav", ".css", ".js"]

/-- AsyncWebCrawler.is_valid_url: scheme and netloc must be present, the
lowercased netloc must equal the base domain, and the lowercased path must
not end in a blocked extension.  The whole body is wrapped in try/except
returning False, so a parse error yields false. -/
def is_valid_url (url : String) (base_domain : String) : Bool :=
  match urlparseE url.data with
  | .error _ => false
  | .ok r =>
    if r.scheme = [] ∨ r.netloc = [] then false
    else if String.mk (r.netloc.map Char.toLower) ≠ base_domain then false
    else
      let path := r.path.map Char.toLower
      !(skip_extensions.any fun e => e.data.isSuffixOf path)

/-! ## Fetching -/

structure Config where
  max_concurrent : Nat
  max_depth : Nat
  max_pages_per_domain : Nat
deriving DecidableEq, Repr

/-- What the network does for one GET: a response with a status and body, a
timeout, a transport failure (an Exception), or a BaseException-style fault
such as asyncio.CancelledError that `except Exception` does not catch. -/
inductive FetchBehavior
  | response (status : Nat) (body : String)
  | timeout
  | failure (reason : String)
  | fatal (reason : String)
deriving DecidableEq, Repr

/-- The oracles for everything outside the embedded code: the network, the
anchor hrefs BeautifulSoup finds in a document (already filtered to those
with an href attribute), and urljoin (which can itself raise on malformed
input, caught by extract_links). -/
structure World where
  fetch : String → FetchBehavior
  hrefs : String → List String
  urljoin : String → String → Except String String

/-- An element of the list asyncio.gather(..., return_exceptions=True)
returns to crawl_domain: either the (url, content, status) triple or a
captured BaseException object. -/
inductive FetchResult
  | triple (url body : String) (status : Nat)
  | exc (reason : String)
deriving DecidableEq, Repr

/-- AsyncWebCrawler.fetch_page: status 200 keeps the body; any other status
yields an empty body with that status; a timeout yields status 408; any
Exception yields status 500.  A BaseException-derived fault escapes the
`except Exception` handler and is captured by gather. -/
def fetch_page (w : World) (url : String) : FetchResult :=
  match w.fetch url with
  | .response status body =>
    if status = 200 then .triple url body 200 else .triple url "" status
  | .timeout => .triple url "" 408
  | .failure _ => .triple url "" 500
  | .fatal r => .exc r

/-! ## Link extraction -/

/-- Loop body of extract_links: for each href, urljoin it with the base and
normalize it; the first exception (from urljoin or normalize_url) aborts the
loop and the links gathered so far are returned, matching the
try/except around the whole loop.  Falsy (empty) hrefs are skipped. -/
def extractLinksGo (w : World) (base : String) : List String → List String → List String
  | [], acc => acc
  | h :: rest, acc =>
    if h = "" then extractLinksGo w base rest acc
    else
      match w.urljoin base h with
      | .error _ => acc
      | .ok abs =>
        match normalize_url abs with
        | .error _ => acc
        | .ok nu =>
          extractLinksGo w base rest (if nu ∈ acc then acc else acc ++ [nu])

/-- AsyncWebCrawler.extract_links.  The Python set of links is modelled as a
duplicate-free list in first-insertion order. -/
def extract_links (w : World) (content base : String) : List String :=
  extractLinksGo w base (w.hrefs content) []

/-! ## The per-domain crawl loop -/

/-- A queue entry: (url, depth). -/
abbrev Task := String × Nat

/-- discovered_by_depth: depth to the set of URLs found there, as an
association list of duplicate-free lists. -/
abbrev Disc := List (Nat × List String)

def discAdd : Disc → Nat → String → Disc
  | [], dep, url => [(dep, [url])]
  | (k, us) :: rest, dep, url =>
    if k = dep then (k, if url ∈ us then us else us ++ [url]) :: rest
    else (k, us) :: discAdd rest dep url

/-- The batch-collection inner loop of crawl_domain: up to n pops, skipping
(without re-enqueueing) tasks already visited, deeper than max_depth, or
arriving after the page budget is filled; admitted tasks are added to the
visited set and counted.  Returns (batch, queue, visited, count). -/
def collectBatch (cfg : Config) : Nat → List Task → List String → Nat →
    List Task × List Task × List String × Nat
  | 0, q, v, c => ([], q, v, c)
  | _ + 1, [], v, c => ([], [], v, c)
  | n + 1, (url, depth) :: q, v, c =>
    if url ∈ v ∨ cfg.max_depth < depth ∨ cfg.max_pages_per_domain ≤ c then
      collectBatch cfg n q v c
    else
      let r := collectBatch cfg n q (url :: v) (c + 1)
      ((url, depth) :: r.1, r.2.1, r.2.2.1, r.2.2.2)

/-- The link-enqueueing loop: push each extracted link at the next depth if
it is in scope, unvisited, and the page count is still under budget. -/
def enqueueLinks (cfg : Config) (domain : String) (v : List String) (c : Nat)
    (dep1 : Nat) (q : List Task) (links : List String) : List Task :=
  links.foldl
    (fun q link =>
      if is_valid_url link domain ∧ link ∉ v ∧ c < cfg.max_pages_per_domain
      then q ++ [(link, dep1)] else q)
    q

/-- The result-processing loop of crawl_domain.  A result that is a captured
BaseException is not an instance of Exception, so the isinstance guard does
not skip it and the tuple unpacking raises TypeError, aborting the loop;
mutations already made to the queue survive (they are on self).  A 200
response with non-empty content is recorded under its depth and, below
max_depth, its links are extracted and enqueued at depth + 1. -/
def processBatch (cfg : Config) (w : World) (domain : String) (v : List String)
    (c : Nat) : List Task → List Task → Disc → List Task × Disc × Option String
  | [], q, disc => (q, disc, none)
  | (url, depth) :: rest, q, disc =>
    match fetch_page w url with
    | .exc _ => (q, disc, some "TypeError")
    | .triple u content status =>
      if status = 200 ∧ content ≠ "" then
        processBatch cfg w domain v c rest
          (if depth < cfg.max_depth then
            enqueueLinks cfg domain v c (depth + 1) q (extract_links w content u)
          else q)
          (discAdd disc depth u)
      else processBatch cfg w domain v c rest q disc

structure LoopOut where
  queue : List Task
  visited : List String
  count : Nat
  disc : Disc
  trace : List (List Task)
  err : Option String
deriving DecidableEq, Repr

/-- The while loop of crawl_domain, with fuel.  Each productive iteration
admits at least one task and so increases the count, which is bounded by
max_pages_per_domain; fuel max_pages_per_domain + 1 is enough (see
crawlLoop_fuel_sufficient).  The trace records each fetched batch. -/
def crawlLoop (cfg : Config) (w : World) (domain : String) :
    Nat → List Task → List String → Nat → Disc → List (List Task) → LoopOut
  | 0, q, v, c, disc, tr => ⟨q, v, c, disc, tr, none⟩
  | fuel + 1, q, v, c, disc, tr =>
    if q = [] ∨ cfg.max_pages_per_domain ≤ c then ⟨q, v, c, disc, tr, none⟩
    else
      match collectBatch cfg (min cfg.max_concurrent q.length) q v c with
      | (batch, q1, v1, c1) =>
        if batch = [] then ⟨q1, v1, c1, disc, tr, none⟩
        else
          match processBatch cfg w domain v1 c1 batch q1 disc with
          | (q2, disc2, some e) => ⟨q2, v1, c1, disc2, tr ++ [batch], some e⟩
          | (q2, disc2, none) =>
            crawlLoop cfg w domain fuel q2 v1 c1 disc2 (tr ++ [batch])

/-! ## Crawler state and crawl_domain -/

/-- The mutable tracking structures of AsyncWebCrawler: visited_urls (a set,
shared across domains), domain_page_count and crawl_queue (defaultdicts
keyed by domain, modelled as association lists with defaults). -/
structure CrawlerState where
  visited_urls : List String
  domain_page_count : List (String × Nat)
  crawl_queue : List (String × List Task)
deriving DecidableEq, Repr

def alookup {α : Type} : List (String × α) → String → Option α
  | [], _ => none
  | (k, a) :: rest, k2 => if k = k2 then some a else alookup rest k2

def aset {α : Type} : List (String × α) → String → α → List (String × α)
  | [], k, a => [(k, a)]
  | (k0, a0) :: rest, k, a =>
    if k0 = k then (k, a) :: rest else (k0, a0) :: aset rest k a

def lookupCount (st : CrawlerState) (d : String) : Nat :=
  (alookup st.domain_page_count d).getD 0

def lookupQueue (st : CrawlerState) (d : String) : List Task :=
  (alookup st.crawl_queue d).getD []

/-- A fresh crawler (one orchestration owns exactly one). -/
def initState : CrawlerState := ⟨[], [], []⟩

/-- Repackaging of the loop output as the final crawler state and the
result of crawl_domain: on an error inside the loop the state mutations
survive (they are on self) but the local discovered mapping is lost with
the propagating exception. -/
def crawlAssemble (st : CrawlerState) (domain : String) (out : LoopOut) :
    CrawlerState × List (List Task) × Except String Disc :=
  (⟨out.visited, aset st.domain_page_count domain out.count,
    aset st.crawl_queue domain out.queue⟩,
   out.trace,
   match out.err with
   | some e => .error e
   | none => .ok out.disc)

/-- AsyncWebCrawler.crawl_domain, instrumented with the batch trace.  The
seed is appended verbatim at depth 0; get_domain can raise before any state
is touched. -/
def crawlDomainFull (cfg : Config) (w : World) (st : CrawlerState)
    (start_url : String) : CrawlerState × List (List Task) × Except String Disc :=
  match get_domain start_url with
  | .error e => (st, [], .error e)
  | .ok domain =>
    crawlAssemble st domain
      (crawlLoop cfg w domain (cfg.max_pages_per_domain + 1)
        (lookupQueue st domain ++ [(start_url, 0)])
        st.visited_urls (lookupCount st domain) [] [])

/-- crawl_domain as the caller sees it: final state and result. -/
def crawl_domain (cfg : Config) (w : World) (st : CrawlerState)
    (start_url : String) : CrawlerState × Except String Disc :=
  ((crawlDomainFull cfg w st start_url).1, (crawlDomainFull cfg w st start_url).2.2)

/-- The sequence of fetch batches one crawl_domain call issues. -/
def crawlTrace (cfg : Config) (w : World) (st : CrawlerState)
    (start_url : String) : List (List Task) :=
  (crawlDomainFull cfg w st start_url).2.1

/-! ## crawl_multiple_domains -/

/-- Group seed URLs by domain, keeping the first seed per domain; get_domain
is called outside any try, so its error aborts the whole call. -/
def groupByDomain : List String → List (String × String) →
    Except String (List (String × String))
  | [], acc => .ok acc
  | url :: rest, acc =>
    match get_domain url with
    | .error e => .error e
    | .ok d =>
      groupByDomain rest (if (alookup acc d).isSome then acc else acc ++ [(d, url)])

/-- The per-domain crawl tasks run by asyncio.gather with
return_exceptions=True, sequentialised: each domain crawl sees the state the
previous ones left (the shared visited set and the domain-keyed dicts). -/
def gatherCrawls (cfg : Config) (w : World) :
    CrawlerState → List (String × String) → List (String × Except String Disc)
  | _, [] => []
  | st, (d, seed) :: rest =>
    let r := crawl_domain cfg w st seed
    (d, r.2) :: gatherCrawls cfg w r.1 rest

/-- The result-organizing loop: results that are exceptions are dropped, so a
failed domain has no key in the returned mapping. -/
def collectResults : List (String × Except String Disc) → List (String × Disc)
  | [] => []
  | (d, .ok r) :: rest => (d, r) :: collectResults rest
  | (_, .error _) :: rest => collectResults rest

/-- AsyncWebCrawler.crawl_multiple_domains. -/
def crawl_multiple_domains (cfg : Config) (w : World) (st : CrawlerState)
    (urls : List String) : Except String (List (String × Disc)) :=
  match groupByDomain urls [] with
  | .error e => .error e
  | .ok gps => .ok (collectResults (gatherCrawls cfg w st gps))

/-! ## Concrete worlds used as counterexamples and witnesses -/

/-- The default configuration of search_and_crawl. -/
def cfgDefault : Config := ⟨8, 2, 8⟩

/-- A world where every fetch times out. -/
def wQuiet : World := ⟨fun _ => .timeout, fun _ => [], fun _ h => .ok h⟩

/-- A world where every fetch fails with a transport error. -/
def wFailA : World := ⟨fun _ => .failure "connection reset", fun _ => [], fun _ h => .ok h⟩

/-- A world like wFailA but with a different failure reason. -/
def wFailB : World := ⟨fun _ => .failure "dns error", fun _ => [], fun _ h => .ok h⟩

/-- A world answering every URL with an HTTP 408 response. -/
def wResp408 : World := ⟨fun _ => .response 408 "server content", fun _ => [], fun _ h => .ok h⟩

/-- World for the duplicate-visitation counterexample: the seed carries a
query string and its page links to the normalized form of the seed. -/
def wDup : World :=
  { fetch := fun u =>
      if u = "http://a.test/?q=1" then .response 200 "page1"
      else if u = "http://a.test/" then .response 200 "leaf"
      else .timeout
    hrefs := fun c => if c = "page1" then ["http://a.test/"] else []
    urljoin := fun _ h => .ok h }

/-- World for the mixed-batch counterexample: the seed page has three
same-domain links and one of those pages links one level deeper. -/
def wMix : World :=
  { fetch := fun u =>
      if u = "http://a.test/" then .response 200 "seedpage"
      else if u = "http://a.test/x" then .response 200 "xpage"
      else .response 200 ""
    hrefs := fun c =>
      if c = "seedpage" then
        ["http://a.test/x", "http://a.test/y", "http://a.test/z"]
      else if c = "xpage" then ["http://a.test/w"]
      else []
    urljoin := fun _ h => .ok h }

/-- World for the fault-isolation counterexample: the crawl of a.test hits a
BaseException-style fault, b.test answers normally. -/
def wFault : World :=
  { fetch := fun u =>
      if u = "http://a.test/" then .fatal "CancelledError"
      else if u = "http://b.test/" then .response 200 "hello"
      else .timeout
    hrefs := fun _ => []
    urljoin := fun _ h => .ok h }

/-- World for the seed-bypass witness: only the blocklisted, query-carrying
seed answers, with content and no links. -/
def wSeed : World :=
  { fetch := fun u =>
      if u = "http://a.test/file.pdf?x=1#f" then .response 200 "hello"
      else .timeout
    hrefs := fun _ => []
    urljoin := fun _ h => .ok h }

/-! ## Observation helpers for the discovered mapping -/

/-- The depth keys of a discovered mapping. -/
def discKeys (d : Disc) : List Nat := d.map (·.1)

/-- All URLs recorded in a discovered mapping, bucket by bucket. -/
def discUrls : Disc → List String
  | [] => []
  | (_, us) :: tl => us ++ discUrls tl

/-- The total number of recorded URLs, the sum the page-budget property
bounds. -/
def discTotal (d : Disc) : Nat := (d.map (·.2.length)).sum

/-! ## Invariants of parsed URL parts -/

/-- The head of a list fails the predicate (vacuously true when empty). -/
def headFails (p : Char → Bool) : Chars → Prop
  | [] => True
  | c :: _ => p c = false

/-- The segment _splitparams searches for a semicolon: after the last slash,
or the whole path when it has no slash. -/
def paramsSeg (p : Chars) : Chars :=
  (splitLastSlash p).elim p (fun x => x.2)

/-- That segment is semicolon-free, so splitparams leaves such a path
unchanged. -/
def ParamsFree (p : Chars) : Prop := ';' ∉ paramsSeg p

/-- The invariants every part of a successful urlparse satisfies: exactly
what is needed for the string normalize_url reassembles to parse back to
parts that reassemble to the same string. -/
structure PartsInv (r : ParseResult) : Prop where
  scheme_ok : r.scheme = [] ∨
    (headAlpha r.scheme = true ∧ r.scheme.all isSchemeChar = true ∧
      r.scheme.map Char.toLower = r.scheme)
  netloc_delim : ∀ c ∈ r.netloc, isNetlocDelim c = false
  netloc_brackets : ((r.netloc.contains '[' && !r.netloc.contains ']') ||
    (r.netloc.contains ']' && !r.netloc.contains '[')) = false
  path_hash : '#' ∉ r.path
  path_query : '?' ∉ r.path
  clean_netloc : ∀ c ∈ r.netloc, isUnsafeByte c = false
  clean_path : ∀ c ∈ r.path, isUnsafeByte c = false
  netloc_path : r.netloc ≠ [] → headFails (fun c => !isNetlocDelim c) r.path
  bare_scheme : r.scheme = [] → r.netloc = [] → splitScheme r.path = ([], r.path)
  bare_head : r.scheme = [] → r.netloc = [] → headFails isC0Space r.path
  params_free : uses_params.contains r.scheme = true → ParamsFree r.path

/-- The same invariants at the urlsplit level, before params splitting. -/
structure SplitInv (r : SplitResult) : Prop where
  scheme_ok : r.scheme = [] ∨
    (headAlpha r.scheme = true ∧ r.scheme.all isSchemeChar = true ∧
      r.scheme.map Char.toLower = r.scheme)
  netloc_delim : ∀ c ∈ r.netloc, isNetlocDelim c = false
  netloc_brackets : ((r.netloc.contains '[' && !r.netloc.contains ']') ||
    (r.netloc.contains ']' && !r.netloc.contains '[')) = false
  path_hash : '#' ∉ r.path
  path_query : '?' ∉ r.path
  clean_netloc : ∀ c ∈ r.netloc, isUnsafeByte c = false
  clean_path : ∀ c ∈ r.path, isUnsafeByte c = false
  netloc_path : r.netloc ≠ [] → headFails (fun c => !isNetlocDelim c) r.path
  bare_scheme : r.scheme = [] → r.netloc = [] → splitScheme r.path = ([], r.path)
  bare_head : r.scheme = [] → r.netloc = [] → headFails isC0Space r.path

/-! # Theorems -/

/-! ## Character-class lemmas -/

theorem toNat_ofNat_lt {n : Nat} (h : n < 55296) : (Char.ofNat n).toNat = n := by
  have hv : n.isValidChar := Or.inl h
  rw [Char.ofNat, dif_pos hv]
  rfl

theorem char_eq_of_toNat {c d : Char} (h : c.toNat = d.toNat) : c = d :=
  Char.ext (UInt32.ext h)

theorem ofNat_le_uint32 {m : Nat} {x : UInt32} (h : m ≤ x.toNat)
    (hm : m < 4294967296) : UInt32.ofNat m ≤ x := by
  rw [UInt32.le_def, BitVec.le_def]
  have h2 : (UInt32.ofNat m).toBitVec.toNat = m := by
    simp [UInt32.ofNat, BitVec.ofNat, Fin.ofNat]
    omega
  rw [h2]
  exact h

theorem uint32_le_ofNat {m : Nat} {x : UInt32} (h : x.toNat ≤ m)
    (hm : m < 4294967296) : x ≤ UInt32.ofNat m := by
  rw [UInt32.le_def, BitVec.le_def]
  have h2 : (UInt32.ofNat m).toBitVec.toNat = m := by
    simp [UInt32.ofNat, BitVec.ofNat, Fin.ofNat]
    omega
  rw [h2]
  exact h

theorem toLower_toNat (c : Char) :
    (Char.toLower c).toNat =
      if 65 ≤ c.toNat ∧ c.toNat ≤ 90 then c.toNat + 32 else c.toNat := by
  simp only [Char.toLower]
  split
  · exact toNat_ofNat_lt (by omega)
  · rfl

theorem toLower_idem (c : Char) : Char.toLower (Char.toLower c) = Char.toLower c := by
  have h1 := toLower_toNat c
  have h2 := toLower_toNat (Char.toLower c)
  apply char_eq_of_toNat
  by_cases h : 65 ≤ c.toNat ∧ c.toNat ≤ 90
  · rw [if_pos h] at h1
    rw [if_neg (by omega)] at h2
    omega
  · rw [if_neg h] at h1
    rw [if_neg (by omega)] at h2
    omega

theorem isSchemeChar_toNat {c : Char} (h : isSchemeChar c = true) :
    (65 ≤ c.toNat ∧ c.toNat ≤ 90) ∨ (97 ≤ c.toNat ∧ c.toNat ≤ 122) ∨
    (48 ≤ c.toNat ∧ c.toNat ≤ 57) ∨ c.toNat = 43 ∨ c.toNat = 45 ∨ c.toNat = 46 := by
  simp [isSchemeChar, Char.isAlpha, Char.isUpper, Char.isLower, Char.isDigit] at h
  rcases h with ((((⟨h1, h2⟩ | ⟨h1, h2⟩) | ⟨h1, h2⟩) | h) | h) | h
  · exact Or.inl ⟨UInt32.le_toNat_of_le (by decide) h1, UInt32.toNat_le_of_le (by decide) h2⟩
  · exact Or.inr (Or.inl ⟨UInt32.le_toNat_of_le (by decide) h1,
      UInt32.toNat_le_of_le (by decide) h2⟩)
  · exact Or.inr (Or.inr (Or.inl ⟨UInt32.le_toNat_of_le (by decide) h1,
      UInt32.toNat_le_of_le (by decide) h2⟩))
  · subst h; exact Or.inr (Or.inr (Or.inr (Or.inl rfl)))
  · subst h; exact Or.inr (Or.inr (Or.inr (Or.inr (Or.inl rfl))))
  · subst h; exact Or.inr (Or.inr (Or.inr (Or.inr (Or.inr rfl))))

theorem isSchemeChar_of_toNat {c : Char}
    (h : (65 ≤ c.toNat ∧ c.toNat ≤ 90) ∨ (97 ≤ c.toNat ∧ c.toNat ≤ 122) ∨
      (48 ≤ c.toNat ∧ c.toNat ≤ 57) ∨ c.toNat = 43 ∨ c.toNat = 45 ∨ c.toNat = 46) :
    isSchemeChar c = true := by
  simp [isSchemeChar, Char.isAlpha, Char.isUpper, Char.isLower, Char.isDigit]
  rcases h with ⟨h1, h2⟩ | ⟨h1, h2⟩ | ⟨h1, h2⟩ | h | h | h
  · exact Or.inl (Or.inl (Or.inl (Or.inl (Or.inl ⟨ofNat_le_uint32 h1 (by norm_num),
      uint32_le_ofNat h2 (by norm_num)⟩))))
  · exact Or.inl (Or.inl (Or.inl (Or.inl (Or.inr ⟨ofNat_le_uint32 h1 (by norm_num),
      uint32_le_ofNat h2 (by norm_num)⟩))))
  · exact Or.inl (Or.inl (Or.inl (Or.inr ⟨ofNat_le_uint32 h1 (by norm_num),
      uint32_le_ofNat h2 (by norm_num)⟩)))
  · exact Or.inl (Or.inl (Or.inr (char_eq_of_toNat (by rw [h]; decide))))
  · exact Or.inl (Or.inr (char_eq_of_toNat (by rw [h]; decide)))
  · exact Or.inr (char_eq_of_toNat (by rw [h]; decide))

theorem isSchemeChar_toLower {c : Char} (h : isSchemeChar c = true) :
    isSchemeChar (Char.toLower c) = true := by
  have ht := toLower_toNat c
  have hn := isSchemeChar_toNat h
  apply isSchemeChar_of_toNat
  by_cases hc : 65 ≤ c.toNat ∧ c.toNat ≤ 90
  · rw [if_pos hc] at ht
    omega
  · rw [if_neg hc] at ht
    omega

theorem isSchemeChar_ge43 {c : Char} (h : isSchemeChar c = true) : 43 ≤ c.toNat := by
  have := isSchemeChar_toNat h
  omega

theorem isSchemeChar_not_colon {c : Char} (h : isSchemeChar c = true) : c ≠ ':' := by
  intro he
  subst he
  exact absurd h (by decide)

theorem isSchemeChar_not_unsafe {c : Char} (h : isSchemeChar c = true) :
    isUnsafeByte c = false := by
  have h43 := isSchemeChar_ge43 h
  by_contra hb
  simp only [Bool.not_eq_false] at hb
  simp only [isUnsafeByte, Bool.or_eq_true, decide_eq_true_eq] at hb
  rcases hb with (he | he) | he <;>
    · subst he
      exact absurd h43 (by decide)

theorem isAlpha_toNat {c : Char} (h : c.isAlpha = true) :
    (65 ≤ c.toNat ∧ c.toNat ≤ 90) ∨ (97 ≤ c.toNat ∧ c.toNat ≤ 122) := by
  simp [Char.isAlpha, Char.isUpper, Char.isLower] at h
  rcases h with ⟨h1, h2⟩ | ⟨h1, h2⟩
  · exact Or.inl ⟨UInt32.le_toNat_of_le (by decide) h1, UInt32.toNat_le_of_le (by decide) h2⟩
  · exact Or.inr ⟨UInt32.le_toNat_of_le (by decide) h1, UInt32.toNat_le_of_le (by decide) h2⟩

theorem isAlpha_of_toNat {c : Char}
    (h : (65 ≤ c.toNat ∧ c.toNat ≤ 90) ∨ (97 ≤ c.toNat ∧ c.toNat ≤ 122)) :
    c.isAlpha = true := by
  simp [Char.isAlpha, Char.isUpper, Char.isLower]
  rcases h with ⟨h1, h2⟩ | ⟨h1, h2⟩
  · exact Or.inl ⟨ofNat_le_uint32 h1 (by norm_num), uint32_le_ofNat h2 (by norm_num)⟩
  · exact Or.inr ⟨ofNat_le_uint32 h1 (by norm_num), uint32_le_ofNat h2 (by norm_num)⟩

theorem isAlpha_toLower {c : Char} (h : c.isAlpha = true) :
    (Char.toLower c).isAlpha = true := by
  have ht := toLower_toNat c
  have hn := isAlpha_toNat h
  apply isAlpha_of_toNat
  by_cases hc : 65 ≤ c.toNat ∧ c.toNat ≤ 90
  · rw [if_pos hc] at ht
    omega
  · rw [if_neg hc] at ht
    omega

theorem isAlpha_not_c0 {c : Char} (h : c.isAlpha = true) : isC0Space c = false := by
  have hn := isAlpha_toNat h
  simp only [isC0Space, decide_eq_false_iff_not]
  omega

theorem isSchemeChar_not_c0 {c : Char} (h : isSchemeChar c = true) :
    isC0Space c = false := by
  have hn := isSchemeChar_ge43 h
  simp only [isC0Space, decide_eq_false_iff_not]
  omega

/-! ## List utilities for the URL parser -/

theorem takeWhile_append_all {p : Char → Bool} :
    ∀ (a b : Chars), (∀ x ∈ a, p x = true) → headFails p b →
      (a ++ b).takeWhile p = a ∧ (a ++ b).dropWhile p = b := by
  intro a
  induction a with
  | nil =>
    intro b _ hb
    match b with
    | [] => simp
    | c :: b2 =>
      simp only [headFails] at hb
      simp [List.takeWhile_cons, List.dropWhile_cons, hb]
  | cons x a2 ih =>
    intro b ha hb
    have hx : p x = true := ha x (List.mem_cons_self _ _)
    obtain ⟨h1, h2⟩ := ih b (fun y hy => ha y (List.mem_cons_of_mem _ hy)) hb
    simp only [List.cons_append, List.takeWhile_cons, List.dropWhile_cons, hx]
    simp [h1, h2]

theorem takeWhile_all_eq {p : Char → Bool} (a : Chars) (ha : ∀ x ∈ a, p x = true) :
    a.takeWhile p = a ∧ a.dropWhile p = [] := by
  have h := takeWhile_append_all a [] ha trivial
  simpa using h

theorem dropWhile_headFails {p : Char → Bool} (a : Chars) (h : headFails p a) :
    a.dropWhile p = a := by
  match a with
  | [] => rfl
  | c :: a2 =>
    simp only [headFails] at h
    simp [List.dropWhile_cons, h]

theorem filter_eq_self_of {p : Char → Bool} (a : Chars) (h : ∀ x ∈ a, p x = true) :
    a.filter p = a :=
  List.filter_eq_self.mpr h

/-! ### findCharIdx -/

theorem findCharIdx_not_mem (c : Char) :
    ∀ (l : Chars), c ∉ l → findCharIdx c l = none := by
  intro l
  induction l with
  | nil => intro _; rfl
  | cons x l2 ih =>
    intro h
    rw [findCharIdx, if_neg (by intro he; exact h (he ▸ List.mem_cons_self _ _)),
      ih (fun h2 => h (List.mem_cons_of_mem _ h2))]
    rfl

theorem findCharIdx_append (c : Char) :
    ∀ (a b : Chars), c ∉ a → findCharIdx c (a ++ c :: b) = some a.length := by
  intro a
  induction a with
  | nil => intro b _; simp [findCharIdx]
  | cons x a2 ih =>
    intro b h
    have hx : ¬x = c := by
      intro he
      exact h (he ▸ List.mem_cons_self _ _)
    rw [List.cons_append, findCharIdx, if_neg hx,
      ih b (fun h2 => h (List.mem_cons_of_mem _ h2))]
    rfl

/-! ### splitAtFirst -/

theorem splitAtFirst_not_mem (l : Chars) (c : Char) (h : c ∉ l) :
    splitAtFirst l c = (l, []) := by
  unfold splitAtFirst
  have h1 : ∀ x ∈ l, (x ≠ c : Bool) = true := by
    intro x hx
    simp only [decide_eq_true_eq]
    intro he
    exact h (he ▸ hx)
  obtain ⟨h2, h3⟩ := takeWhile_all_eq l h1
  rw [h2, h3]
  rfl

theorem splitAtFirst_append (a b : Chars) (c : Char) (h : c ∉ a) :
    splitAtFirst (a ++ c :: b) c = (a, b) := by
  unfold splitAtFirst
  have h1 : ∀ x ∈ a, (x ≠ c : Bool) = true := by
    intro x hx
    simp only [decide_eq_true_eq]
    intro he
    exact h (he ▸ hx)
  have h2 : headFails (fun x => (x ≠ c : Bool)) (c :: b) := by
    simp [headFails]
  obtain ⟨h3, h4⟩ := takeWhile_append_all a (c :: b) h1 h2
  rw [h3, h4]
  simp

theorem splitAtFirst_fst_not_mem (l : Chars) (c : Char) :
    c ∉ (splitAtFirst l c).1 := by
  intro h
  have := List.mem_takeWhile_imp h
  simp at this

theorem splitAtFirst_cons_eq (c : Char) (l2 : Chars) :
    splitAtFirst (c :: l2) c = ([], l2) := by
  unfold splitAtFirst
  rw [List.takeWhile_cons, List.dropWhile_cons, if_neg (by simp), if_neg (by simp)]
  simp

theorem splitAtFirst_cons_ne (x : Char) (l2 : Chars) (c : Char) (hx : ¬x = c) :
    splitAtFirst (x :: l2) c =
      (x :: (splitAtFirst l2 c).1, (splitAtFirst l2 c).2) := by
  unfold splitAtFirst
  rw [List.takeWhile_cons, List.dropWhile_cons,
    if_pos (by simpa using hx), if_pos (by simpa using hx)]

theorem splitAtFirst_eq_or (l : Chars) (c : Char) :
    l = (splitAtFirst l c).1 ∨
    l = (splitAtFirst l c).1 ++ c :: (splitAtFirst l c).2 := by
  induction l with
  | nil => left; rfl
  | cons x l2 ih =>
    by_cases hx : x = c
    · right
      subst hx
      rw [splitAtFirst_cons_eq]
      rfl
    · rw [splitAtFirst_cons_ne x l2 c hx]
      rcases ih with h | h
      · left
        conv_lhs => rw [h]
      · right
        conv_lhs => rw [h]
        rfl

theorem splitAtFirst_fst_subset (l : Chars) (c : Char) :
    ∀ x ∈ (splitAtFirst l c).1, x ∈ l := by
  intro x hx
  rcases splitAtFirst_eq_or l c with h | h
  · rw [h]; exact hx
  · rw [h]; exact List.mem_append.mpr (Or.inl hx)

theorem splitAtFirst_snd_subset (l : Chars) (c : Char) :
    ∀ x ∈ (splitAtFirst l c).2, x ∈ l := by
  induction l with
  | nil =>
    intro x hx
    simp [splitAtFirst] at hx
  | cons y l2 ih =>
    intro x hx
    by_cases hy : y = c
    · subst hy
      rw [splitAtFirst_cons_eq] at hx
      exact List.mem_cons_of_mem _ hx
    · rw [splitAtFirst_cons_ne y l2 c hy] at hx
      exact List.mem_cons_of_mem _ (ih x hx)

/-! ### splitLastSlash -/

theorem splitLastSlash_none :
    ∀ (l : Chars), splitLastSlash l = none → '/' ∉ l := by
  intro l
  induction l with
  | nil => intro _; simp
  | cons x l2 ih =>
    intro h hmem
    rw [splitLastSlash] at h
    match hm : splitLastSlash l2 with
    | some p => rw [hm] at h; simp at h
    | none =>
      rw [hm] at h
      by_cases hx : x = '/'
      · rw [if_pos hx] at h; simp at h
      · rcases List.mem_cons.mp hmem with he | he
        · exact hx he.symm
        · exact ih hm he

theorem splitLastSlash_some :
    ∀ (l a b : Chars), splitLastSlash l = some (a, b) →
      l = a ++ '/' :: b ∧ '/' ∉ b := by
  intro l
  induction l with
  | nil => intro a b h; simp [splitLastSlash] at h
  | cons x l2 ih =>
    intro a b h
    rw [splitLastSlash] at h
    match hm : splitLastSlash l2 with
    | some (a2, b2) =>
      rw [hm] at h
      injection h with h
      have h1 : x :: a2 = a := congrArg Prod.fst h
      have h2 : b2 = b := congrArg Prod.snd h
      subst h1; subst h2
      obtain ⟨h3, h4⟩ := ih a2 b2 hm
      exact ⟨by rw [List.cons_append, ← h3], h4⟩
    | none =>
      rw [hm] at h
      by_cases hx : x = '/'
      · rw [if_pos hx] at h
        injection h with h
        have h1 : ([] : Chars) = a := congrArg Prod.fst h
        have h2 : l2 = b := congrArg Prod.snd h
        subst h1; subst h2
        exact ⟨by rw [hx]; rfl, splitLastSlash_none l2 hm⟩
      · rw [if_neg hx] at h
        simp at h

theorem splitLastSlash_build :
    ∀ (a b : Chars), '/' ∉ b → splitLastSlash (a ++ '/' :: b) = some (a, b) := by
  intro a
  induction a with
  | nil =>
    intro b hb
    rw [List.nil_append, splitLastSlash]
    have hnone : splitLastSlash b = none := by
      induction b with
      | nil => rfl
      | cons y b2 ihb =>
        rw [splitLastSlash]
        have hy : ¬y = '/' := by
          intro he
          exact hb (he ▸ List.mem_cons_self _ _)
        rw [ihb (fun h2 => hb (List.mem_cons_of_mem _ h2)), if_neg hy]
    rw [hnone, if_pos rfl]
  | cons x a2 ih =>
    intro b hb
    rw [List.cons_append, splitLastSlash, ih b hb]

/-! ### cleanUrl -/

theorem cleanUrl_eq_self (l : Chars) (h1 : headFails isC0Space l)
    (h2 : ∀ x ∈ l, isUnsafeByte x = false) : cleanUrl l = l := by
  unfold cleanUrl
  rw [dropWhile_headFails l h1]
  exact filter_eq_self_of l (by intro x hx; simp [h2 x hx])

theorem cleanUrl_unsafe_free (l : Chars) :
    ∀ x ∈ cleanUrl l, isUnsafeByte x = false := by
  intro x hx
  unfold cleanUrl at hx
  have := List.of_mem_filter hx
  simpa using this

theorem unsafe_imp_c0 (c : Char) (h : isUnsafeByte c = true) : isC0Space c = true := by
  simp only [isUnsafeByte, Bool.or_eq_true, decide_eq_true_eq] at h
  rcases h with (h | h) | h <;> subst h <;> decide

theorem cleanUrl_headFails (l : Chars) : headFails isC0Space (cleanUrl l) := by
  unfold cleanUrl
  match hm : l.dropWhile isC0Space with
  | [] => trivial
  | c :: rest =>
    have hc : isC0Space c = false := by
      have h0 := List.head?_dropWhile_not isC0Space l
      rw [hm] at h0
      simpa using h0
    have hu : isUnsafeByte c = false := by
      cases hcu : isUnsafeByte c
      · rfl
      · rw [unsafe_imp_c0 c hcu] at hc
        exact absurd hc (by simp)
    rw [List.filter_cons, if_pos (by simp [hu])]
    simpa [headFails] using hc

theorem cleanUrl_mem (l : Chars) : ∀ x ∈ cleanUrl l, x ∈ l := by
  intro x hx
  unfold cleanUrl at hx
  exact List.dropWhile_subset _ (List.mem_of_mem_filter hx)

/-! ### Transfer along an initial segment -/

theorem headFails_of_firstpart {q : Char → Bool} (pre t l : Chars)
    (he : pre ++ t = l) (h : headFails q l) : headFails q pre := by
  match pre with
  | [] => trivial
  | c :: rest =>
    rw [← he] at h
    exact h

theorem mem_of_firstpart {x : Char} (pre t l : Chars) (he : pre ++ t = l)
    (h : x ∈ pre) : x ∈ l := by
  rw [← he]
  exact List.mem_append.mpr (Or.inl h)

theorem splitAtFirst_fst_firstpart (l : Chars) (c : Char) :
    ∃ t, (splitAtFirst l c).1 ++ t = l := by
  rcases splitAtFirst_eq_or l c with h | h
  · exact ⟨[], by rw [List.append_nil, ← h]⟩
  · exact ⟨c :: (splitAtFirst l c).2, h.symm⟩

/-! ### The specification of findCharIdx -/

theorem findCharIdx_some (c : Char) :
    ∀ (l : Chars) (i : Nat), findCharIdx c l = some i →
      ∃ a b, l = a ++ c :: b ∧ a.length = i ∧ c ∉ a := by
  intro l
  induction l with
  | nil => intro i h; simp [findCharIdx] at h
  | cons x l2 ih =>
    intro i h
    rw [findCharIdx] at h
    by_cases hx : x = c
    · rw [if_pos hx] at h
      injection h with h
      subst h
      subst hx
      exact ⟨[], l2, rfl, rfl, by simp⟩
    · rw [if_neg hx] at h
      match hm : findCharIdx c l2 with
      | none => rw [hm] at h; simp at h
      | some j =>
        rw [hm] at h
        rw [show Option.map (· + 1) (some j) = some (j + 1) from rfl] at h
        injection h with h
        obtain ⟨a, b, h1, h2, h3⟩ := ih j hm
        refine ⟨x :: a, b, by rw [List.cons_append, ← h1], ?_, ?_⟩
        · rw [List.length_cons, h2, h]
        · intro hmem
          rcases List.mem_cons.mp hmem with he | he
          · exact hx he.symm
          · exact h3 he

/-! ### splitScheme -/

theorem headAlpha_append (a x : Chars) (ha : a ≠ []) :
    headAlpha (a ++ x) = headAlpha a := by
  match a with
  | [] => exact absurd rfl ha
  | c :: rest => rfl

theorem splitScheme_none_eq (u : Chars) (hm : findCharIdx ':' u = none) :
    splitScheme u = ([], u) := by
  unfold splitScheme
  rw [hm]

theorem splitScheme_some_eq (u : Chars) (i : Nat) (hm : findCharIdx ':' u = some i) :
    splitScheme u =
      if 0 < i ∧ headAlpha u = true ∧ (u.take i).all isSchemeChar = true then
        ((u.take i).map Char.toLower, u.drop (i + 1))
      else ([], u) := by
  unfold splitScheme
  rw [hm]

theorem splitScheme_fail_of_not_headAlpha (v : Chars) (h : headAlpha v = false) :
    splitScheme v = ([], v) := by
  match hm : findCharIdx ':' v with
  | none => exact splitScheme_none_eq v hm
  | some i =>
    rw [splitScheme_some_eq v i hm, if_neg]
    intro hc
    rw [h] at hc
    exact Bool.false_ne_true hc.2.1

theorem splitScheme_eq_fail_or (u : Chars) :
    splitScheme u = ([], u) ∨
    ∃ a b, u = a ++ ':' :: b ∧ a ≠ [] ∧ headAlpha a = true ∧
      a.all isSchemeChar = true ∧ ':' ∉ a ∧
      splitScheme u = (a.map Char.toLower, b) := by
  match hm : findCharIdx ':' u with
  | none => left; exact splitScheme_none_eq u hm
  | some i =>
    rw [splitScheme_some_eq u i hm]
    by_cases hc : 0 < i ∧ headAlpha u = true ∧ (u.take i).all isSchemeChar = true
    · right
      obtain ⟨a, b, h1, h2, h3⟩ := findCharIdx_some ':' u i hm
      have hane : a ≠ [] := by
        intro hae
        subst hae
        simp at h2
        omega
      have ht : u.take i = a := by
        rw [h1]
        exact List.take_left' h2
      have hd : u.drop (i + 1) = b := by
        rw [h1, show a ++ ':' :: b = (a ++ [':']) ++ b by simp]
        exact List.drop_left' (by simp [h2])
      refine ⟨a, b, h1, hane, ?_, ?_, h3, ?_⟩
      · rw [← headAlpha_append a (':' :: b) hane, ← h1]
        exact hc.2.1
      · rw [← ht]
        exact hc.2.2
      · rw [if_pos hc, ht, hd]
    · left
      rw [if_neg hc]

theorem splitScheme_attach (s rest : Chars) (hne : s ≠ [])
    (hall : s.all isSchemeChar = true) (hlow : s.map Char.toLower = s)
    (hha : headAlpha s = true) :
    splitScheme (s ++ ':' :: rest) = (s, rest) := by
  have hall2 : ∀ x ∈ s, isSchemeChar x = true := List.all_eq_true.mp hall
  have hnc : ':' ∉ s := fun hm => isSchemeChar_not_colon (hall2 _ hm) rfl
  have hcond : 0 < s.length ∧ headAlpha (s ++ ':' :: rest) = true ∧
      ((s ++ ':' :: rest).take s.length).all isSchemeChar = true := by
    refine ⟨List.length_pos.mpr hne, ?_, ?_⟩
    · rw [headAlpha_append s _ hne]
      exact hha
    · rw [List.take_left]
      exact hall
  have hd : (s ++ ':' :: rest).drop (s.length + 1) = rest := by
    rw [show s ++ ':' :: rest = (s ++ [':']) ++ rest by simp]
    exact List.drop_left' (by simp)
  rw [splitScheme_some_eq _ _ (findCharIdx_append ':' s rest hnc), if_pos hcond,
    List.take_left, hd, hlow]

theorem splitScheme_fail_of_firstpart (l pre t : Chars) (he : pre ++ t = l)
    (h : splitScheme l = ([], l)) : splitScheme pre = ([], pre) := by
  match hm : findCharIdx ':' pre with
  | none => exact splitScheme_none_eq pre hm
  | some i =>
    rw [splitScheme_some_eq pre i hm, if_neg]
    intro hc
    obtain ⟨a, b, h1, h2, h3⟩ := findCharIdx_some ':' pre i hm
    have hl : l = a ++ ':' :: (b ++ t) := by
      rw [← he, h1]
      simp
    have hfl : findCharIdx ':' l = some i := by
      rw [hl, findCharIdx_append ':' a _ h3, h2]
    have hane : a ≠ [] := by
      intro hae
      subst hae
      simp at h2
      omega
    have hhl : headAlpha l = headAlpha a := by
      rw [hl]
      exact headAlpha_append a _ hane
    have hhp : headAlpha pre = headAlpha a := by
      rw [h1]
      exact headAlpha_append a _ hane
    have htl : l.take i = a := by
      rw [hl]
      exact List.take_left' h2
    have htp : pre.take i = a := by
      rw [h1]
      exact List.take_left' h2
    have hcl : 0 < i ∧ headAlpha l = true ∧ (l.take i).all isSchemeChar = true := by
      refine ⟨hc.1, ?_, ?_⟩
      · rw [hhl, ← hhp]
        exact hc.2.1
      · rw [htl, ← htp]
        exact hc.2.2
    have h4 := h
    rw [splitScheme_some_eq l i hfl, if_pos hcl, htl] at h4
    have hfst : a.map Char.toLower = [] := congrArg Prod.fst h4
    rcases a with _ | ⟨c, a2⟩
    · exact hane rfl
    · simp at hfst

theorem schemeOK_mapLower (a : Chars) (hane : a ≠ []) (hha : headAlpha a = true)
    (hall : a.all isSchemeChar = true) :
    headAlpha (a.map Char.toLower) = true ∧
    (a.map Char.toLower).all isSchemeChar = true ∧
    (a.map Char.toLower).map Char.toLower = a.map Char.toLower := by
  refine ⟨?_, ?_, ?_⟩
  · match a with
    | [] => exact absurd rfl hane
    | c :: rest => exact isAlpha_toLower hha
  · simp only [List.all_eq_true] at hall ⊢
    intro x hx
    obtain ⟨y, hy, he⟩ := List.mem_map.mp hx
    subst he
    exact isSchemeChar_toLower (hall y hy)
  · rw [List.map_map]
    exact List.map_congr_left (fun x _ => toLower_idem x)

/-! ### splitNetloc and the query and fragment splits -/

theorem splitNetloc_append (n p : Chars) (hn : ∀ c ∈ n, isNetlocDelim c = false)
    (hp : headFails (fun c => !isNetlocDelim c) p) :
    splitNetloc (n ++ p) = (n, p) := by
  unfold splitNetloc
  obtain ⟨h1, h2⟩ := takeWhile_append_all n p (by intro x hx; simp [hn x hx]) hp
  rw [h1, h2]

theorem pathSplit_id (p : Chars) (h1 : '#' ∉ p) (h2 : '?' ∉ p) :
    splitAtFirst ((splitAtFirst p '#').1) '?' = (p, []) ∧
    (splitAtFirst p '#').2 = [] := by
  rw [splitAtFirst_not_mem p '#' h1]
  exact ⟨splitAtFirst_not_mem p '?' h2, rfl⟩

theorem delim_not_alpha {c : Char} (h : isNetlocDelim c = true) :
    c.isAlpha = false := by
  simp only [isNetlocDelim, Bool.or_eq_true, decide_eq_true_eq] at h
  rcases h with (h | h) | h <;> subst h <;> decide

theorem delim_not_c0 {c : Char} (h : isNetlocDelim c = true) :
    isC0Space c = false := by
  simp only [isNetlocDelim, Bool.or_eq_true, decide_eq_true_eq] at h
  rcases h with (h | h) | h <;> subst h <;> decide

theorem delim_not_unsafe {c : Char} (h : isNetlocDelim c = true) :
    isUnsafeByte c = false := by
  simp only [isNetlocDelim, Bool.or_eq_true, decide_eq_true_eq] at h
  rcases h with (h | h) | h <;> subst h <;> decide

theorem head_slash_of_delim (p : Chars)
    (hf : headFails (fun c => !isNetlocDelim c) p)
    (hph : '#' ∉ p) (hpq : '?' ∉ p) : p = [] ∨ p.head? = some '/' := by
  match p, hf, hph, hpq with
  | [], _, _, _ => left; rfl
  | c :: xs, hf, hph, hpq =>
    right
    have hf2 : isNetlocDelim c = true := by
      have : (!isNetlocDelim c) = false := hf
      simpa using this
    simp only [isNetlocDelim, Bool.or_eq_true, decide_eq_true_eq] at hf2
    rcases hf2 with (h | h) | h
    · subst h
      rfl
    · subst h
      exact absurd (List.mem_cons_self _ _) hpq
    · subst h
      exact absurd (List.mem_cons_self _ _) hph

/-! ### splitparams and ParamsFree -/

theorem splitLastSlash_none_of_not_mem (l : Chars) (h : '/' ∉ l) :
    splitLastSlash l = none := by
  match hm : splitLastSlash l with
  | none => rfl
  | some (a, b) =>
    obtain ⟨h1, _⟩ := splitLastSlash_some l a b hm
    exact absurd (show ('/' : Char) ∈ l by
      rw [h1]
      exact List.mem_append.mpr (Or.inr (List.mem_cons_self _ _))) h

theorem paramsFree_of_no_semi (p : Chars) (h : ';' ∉ p) : ParamsFree p := by
  unfold ParamsFree paramsSeg
  match hm : splitLastSlash p with
  | none =>
    simp only [Option.elim]
    exact h
  | some (a, b) =>
    simp only [Option.elim]
    obtain ⟨h1, _⟩ := splitLastSlash_some p a b hm
    intro hb
    exact h (by rw [h1]; exact List.mem_append.mpr (Or.inr (List.mem_cons_of_mem _ hb)))

theorem splitparams_none_eq (p : Chars) (hm : splitLastSlash p = none) :
    splitparams p = splitAtFirst p ';' := by
  unfold splitparams
  rw [hm]

theorem splitparams_some_eq (p a b : Chars) (hm : splitLastSlash p = some (a, b)) :
    splitparams p =
      if b.contains ';' = true then
        (a ++ '/' :: (splitAtFirst b ';').1, (splitAtFirst b ';').2)
      else (p, []) := by
  unfold splitparams
  rw [hm]

theorem splitparams_of_paramsFree (p : Chars) (h : ParamsFree p) :
    splitparams p = (p, []) := by
  unfold ParamsFree paramsSeg at h
  match hm : splitLastSlash p with
  | none =>
    rw [hm] at h
    simp only [Option.elim] at h
    rw [splitparams_none_eq p hm]
    exact splitAtFirst_not_mem p ';' h
  | some (a, b) =>
    rw [hm] at h
    simp only [Option.elim] at h
    rw [splitparams_some_eq p a b hm, if_neg (by simpa using h)]

theorem splitparams_fst_paramsFree (p : Chars) : ParamsFree (splitparams p).1 := by
  match hm : splitLastSlash p with
  | none =>
    have hs : '/' ∉ p := splitLastSlash_none p hm
    have hs2 : '/' ∉ (splitAtFirst p ';').1 :=
      fun hmem => hs (splitAtFirst_fst_subset p ';' _ hmem)
    rw [splitparams_none_eq p hm]
    unfold ParamsFree paramsSeg
    rw [splitLastSlash_none_of_not_mem _ hs2]
    simp only [Option.elim]
    exact splitAtFirst_fst_not_mem p ';'
  | some (a, b) =>
    rw [splitparams_some_eq p a b hm]
    by_cases hb : b.contains ';' = true
    · rw [if_pos hb]
      obtain ⟨_, hnb⟩ := splitLastSlash_some p a b hm
      have hsub : '/' ∉ (splitAtFirst b ';').1 :=
        fun hmem => hnb (splitAtFirst_fst_subset b ';' _ hmem)
      show ParamsFree (a ++ '/' :: (splitAtFirst b ';').1)
      unfold ParamsFree paramsSeg
      rw [splitLastSlash_build a _ hsub]
      simp only [Option.elim]
      exact splitAtFirst_fst_not_mem b ';'
    · rw [if_neg hb]
      unfold ParamsFree paramsSeg
      rw [hm]
      simp only [Option.elim]
      intro hmem
      exact hb (by simpa using hmem)

theorem paramsFree_cons_slash (p : Chars) (h : ParamsFree p) :
    ParamsFree ('/' :: p) := by
  unfold ParamsFree paramsSeg at h ⊢
  match hm : splitLastSlash p with
  | none =>
    rw [hm] at h
    simp only [Option.elim] at h
    rw [splitLastSlash, hm]
    show ';' ∉ ((if ('/' : Char) = '/' then some (([] : Chars), p) else none).elim
      ('/' :: p) (fun x => x.2))
    rw [if_pos rfl]
    simp only [Option.elim]
    exact h
  | some (a, b) =>
    rw [hm] at h
    simp only [Option.elim] at h
    rw [splitLastSlash, hm]
    show ';' ∉ ((some ('/' :: a, b)).elim ('/' :: p) (fun x => x.2))
    simp only [Option.elim]
    exact h

theorem splitLastSlash_append_right (z y a0 b0 : Chars)
    (h : splitLastSlash y = some (a0, b0)) :
    splitLastSlash (z ++ y) = some (z ++ a0, b0) := by
  obtain ⟨h1, h2⟩ := splitLastSlash_some y a0 b0 h
  rw [h1, show z ++ (a0 ++ '/' :: b0) = (z ++ a0) ++ '/' :: b0 by simp]
  exact splitLastSlash_build (z ++ a0) b0 h2

theorem splitparams_fst_firstpart (p : Chars) : ∃ t, (splitparams p).1 ++ t = p := by
  match hm : splitLastSlash p with
  | none =>
    rw [splitparams_none_eq p hm]
    exact splitAtFirst_fst_firstpart p ';'
  | some (a, b) =>
    rw [splitparams_some_eq p a b hm]
    by_cases hb : b.contains ';' = true
    · rw [if_pos hb]
      obtain ⟨h1, _⟩ := splitLastSlash_some p a b hm
      show ∃ t, (a ++ '/' :: (splitAtFirst b ';').1) ++ t = p
      obtain ⟨t, ht⟩ := splitAtFirst_fst_firstpart b ';'
      refine ⟨t, ?_⟩
      rw [h1, List.append_assoc, List.cons_append, ht]
    · rw [if_neg hb]
      exact ⟨[], by simp⟩

/-! ### Branch equations for urlsplit, urlparse and normalize -/

theorem urlsplitE_netloc_eq (u s u2 n u3 : Chars)
    (hs : splitScheme (cleanUrl u) = (s, u2))
    (ht : u2.take 2 = ['/', '/'])
    (hn : splitNetloc (u2.drop 2) = (n, u3))
    (hbr : ((n.contains '[' && !n.contains ']') ||
      (n.contains ']' && !n.contains '[')) = false) :
    urlsplitE u = .ok ⟨s, n, (splitAtFirst (splitAtFirst u3 '#').1 '?').1,
      (splitAtFirst (splitAtFirst u3 '#').1 '?').2, (splitAtFirst u3 '#').2⟩ := by
  simp [urlsplitE, hs, ht, hn]
  simpa using hbr

theorem urlsplitE_netloc_err (u s u2 n u3 : Chars)
    (hs : splitScheme (cleanUrl u) = (s, u2))
    (ht : u2.take 2 = ['/', '/'])
    (hn : splitNetloc (u2.drop 2) = (n, u3))
    (hbr : ((n.contains '[' && !n.contains ']') ||
      (n.contains ']' && !n.contains '[')) = true) :
    urlsplitE u = .error "Invalid IPv6 URL" := by
  simp [urlsplitE, hs, ht, hn]
  simp at hbr
  intro h1
  rcases hbr with ⟨hin, hnot⟩ | ⟨hin, hnot⟩
  · exact absurd (h1 hin) hnot
  · exact ⟨hin, hnot⟩

theorem urlsplitE_plain_eq (u s u2 : Chars)
    (hs : splitScheme (cleanUrl u) = (s, u2))
    (ht : ¬u2.take 2 = ['/', '/']) :
    urlsplitE u = .ok ⟨s, [], (splitAtFirst (splitAtFirst u2 '#').1 '?').1,
      (splitAtFirst (splitAtFirst u2 '#').1 '?').2, (splitAtFirst u2 '#').2⟩ := by
  simp [urlsplitE, hs, ht]

theorem urlparseE_err_eq (u : Chars) (e : String) (h : urlsplitE u = .error e) :
    urlparseE u = .error e := by
  unfold urlparseE
  rw [h]
  rfl

theorem urlparseE_ok_eq (u : Chars) (r0 : SplitResult) (h : urlsplitE u = .ok r0) :
    urlparseE u =
      if uses_params.contains r0.scheme ∧ r0.path.contains ';' then
        .ok ⟨r0.scheme, r0.netloc, (splitparams r0.path).1, (splitparams r0.path).2,
          r0.query, r0.fragment⟩
      else .ok ⟨r0.scheme, r0.netloc, r0.path, [], r0.query, r0.fragment⟩ := by
  unfold urlparseE
  rw [h]
  rfl

theorem normList_err_eq (u : Chars) (e : String) (h : urlparseE u = .error e) :
    normList u = .error e := by
  unfold normList
  rw [h]
  rfl

theorem normList_ok_eq (u : Chars) (r : ParseResult) (h : urlparseE u = .ok r) :
    normList u = .ok (urlunsplit3 r.scheme r.netloc r.path) := by
  unfold normList
  rw [h]
  rfl

theorem urlunsplit3_affix (s n p : Chars)
    (hc : n ≠ [] ∨ (s ≠ [] ∧ uses_netloc.contains s = true ∧ p.take 2 ≠ ['/', '/']))
    (hp : ¬(p ≠ [] ∧ p.head? ≠ some '/')) (hs : s ≠ []) :
    urlunsplit3 s n p = s ++ ':' :: ('/' :: '/' :: (n ++ p)) := by
  simp only [urlunsplit3]
  rw [if_pos hc, if_neg hp, if_pos hs]

theorem urlunsplit3_affix_noscheme (n p : Chars)
    (hc : n ≠ [] ∨ (([] : Chars) ≠ [] ∧ uses_netloc.contains ([] : Chars) = true ∧
      p.take 2 ≠ ['/', '/']))
    (hp : ¬(p ≠ [] ∧ p.head? ≠ some '/')) :
    urlunsplit3 [] n p = '/' :: '/' :: (n ++ p) := by
  simp only [urlunsplit3]
  rw [if_pos hc, if_neg hp, if_neg (by simp)]

theorem urlunsplit3_affix_slash (s n p : Chars)
    (hc : n ≠ [] ∨ (s ≠ [] ∧ uses_netloc.contains s = true ∧ p.take 2 ≠ ['/', '/']))
    (hp : p ≠ [] ∧ p.head? ≠ some '/') (hs : s ≠ []) :
    urlunsplit3 s n p = s ++ ':' :: ('/' :: '/' :: (n ++ '/' :: p)) := by
  simp only [urlunsplit3]
  rw [if_pos hc, if_pos hp, if_pos hs]

theorem urlunsplit3_plain_scheme (s n p : Chars)
    (hc : ¬(n ≠ [] ∨ (s ≠ [] ∧ uses_netloc.contains s = true ∧ p.take 2 ≠ ['/', '/'])))
    (hs : s ≠ []) :
    urlunsplit3 s n p = s ++ ':' :: p := by
  simp only [urlunsplit3]
  rw [if_neg hc, if_pos hs]

theorem urlunsplit3_plain (n p : Chars)
    (hc : ¬(n ≠ [] ∨ (([] : Chars) ≠ [] ∧ uses_netloc.contains ([] : Chars) = true ∧
      p.take 2 ≠ ['/', '/']))) :
    urlunsplit3 [] n p = p := by
  simp only [urlunsplit3]
  rw [if_neg hc, if_neg (by simp)]

/-! ### The parse invariants -/

theorem dropWhile_headFails_self (p : Char → Bool) (l : Chars) :
    headFails p (l.dropWhile p) := by
  match hd : l.dropWhile p with
  | [] => trivial
  | c :: rest =>
    have h0 := List.head?_dropWhile_not p l
    rw [hd] at h0
    exact h0

theorem splitScheme_fail_of_headFails_delim (p : Chars)
    (hf : headFails (fun c => !isNetlocDelim c) p) : splitScheme p = ([], p) := by
  match p, hf with
  | [], _ => exact splitScheme_none_eq [] rfl
  | c :: xs, hf =>
    apply splitScheme_fail_of_not_headAlpha
    have hd : isNetlocDelim c = true := by
      have h5 : (!isNetlocDelim c) = false := hf
      simpa using h5
    exact delim_not_alpha hd

theorem headFails_c0_of_delim (p : Chars)
    (hf : headFails (fun c => !isNetlocDelim c) p) : headFails isC0Space p := by
  match p, hf with
  | [], _ => trivial
  | c :: xs, hf =>
    have hd : isNetlocDelim c = true := by
      have h5 : (!isNetlocDelim c) = false := hf
      simpa using h5
    exact delim_not_c0 hd

theorem urlsplitE_inv_core (u s u2 : Chars) (r : SplitResult)
    (h : urlsplitE u = .ok r)
    (hs : splitScheme (cleanUrl u) = (s, u2))
    (hsok : s = [] ∨ (headAlpha s = true ∧ s.all isSchemeChar = true ∧
      s.map Char.toLower = s))
    (hu2clean : ∀ c ∈ u2, isUnsafeByte c = false)
    (hbare1 : s = [] → splitScheme u2 = ([], u2))
    (hbare2 : s = [] → headFails isC0Space u2) :
    SplitInv r := by
  by_cases ht : u2.take 2 = ['/', '/']
  · match hn : splitNetloc (u2.drop 2) with
    | (n, u3) =>
      by_cases hbr : ((n.contains '[' && !n.contains ']') ||
          (n.contains ']' && !n.contains '[')) = true
      · rw [urlsplitE_netloc_err u s u2 n u3 hs ht hn hbr] at h
        exact absurd h (by simp)
      · have hbr2 : ((n.contains '[' && !n.contains ']') ||
            (n.contains ']' && !n.contains '[')) = false := by
          simpa using hbr
        rw [urlsplitE_netloc_eq u s u2 n u3 hs ht hn hbr2] at h
        injection h with h
        subst h
        have hn1 : (u2.drop 2).takeWhile (fun c => !isNetlocDelim c) = n :=
          congrArg Prod.fst hn
        have hn2 : (u2.drop 2).dropWhile (fun c => !isNetlocDelim c) = u3 :=
          congrArg Prod.snd hn
        have hnu3 : n ++ u3 = u2.drop 2 := by
          rw [← hn1, ← hn2]
          exact List.takeWhile_append_dropWhile _ _
        have hu3f : headFails (fun c => !isNetlocDelim c) u3 := by
          rw [← hn2]
          exact dropWhile_headFails_self _ _
        obtain ⟨t1, ht1⟩ := splitAtFirst_fst_firstpart u3 '#'
        obtain ⟨t2, ht2⟩ := splitAtFirst_fst_firstpart (splitAtFirst u3 '#').1 '?'
        have hPfp : ∃ t, (splitAtFirst (splitAtFirst u3 '#').1 '?').1 ++ t = u3 :=
          ⟨t2 ++ t1, by rw [← List.append_assoc, ht2, ht1]⟩
        obtain ⟨t3, ht3⟩ := hPfp
        have hmemu2 : ∀ c ∈ u3, c ∈ u2 := by
          intro c hc
          have h6 : c ∈ u2.drop 2 := by
            rw [← hnu3]
            exact List.mem_append.mpr (Or.inr hc)
          exact List.drop_subset _ _ h6
        have hPf : headFails (fun c => !isNetlocDelim c)
            (splitAtFirst (splitAtFirst u3 '#').1 '?').1 :=
          headFails_of_firstpart _ _ _ ht3 hu3f
        refine ⟨hsok, ?_, hbr2, ?_, ?_, ?_, ?_, fun _ => hPf, ?_, ?_⟩
        · intro c hc
          rw [← hn1] at hc
          have h7 := List.mem_takeWhile_imp hc
          simpa using h7
        · exact fun hm => splitAtFirst_fst_not_mem u3 '#'
            (splitAtFirst_fst_subset _ '?' _ hm)
        · exact splitAtFirst_fst_not_mem _ '?'
        · intro c hc
          apply hu2clean
          apply List.drop_subset 2 u2
          rw [← hnu3]
          exact List.mem_append.mpr (Or.inl hc)
        · intro c hc
          exact hu2clean c (hmemu2 c (mem_of_firstpart _ _ _ ht3 hc))
        · exact fun _ _ => splitScheme_fail_of_headFails_delim _ hPf
        · exact fun _ _ => headFails_c0_of_delim _ hPf
  · rw [urlsplitE_plain_eq u s u2 hs ht] at h
    injection h with h
    subst h
    obtain ⟨t1, ht1⟩ := splitAtFirst_fst_firstpart u2 '#'
    obtain ⟨t2, ht2⟩ := splitAtFirst_fst_firstpart (splitAtFirst u2 '#').1 '?'
    have hPfp : ∃ t, (splitAtFirst (splitAtFirst u2 '#').1 '?').1 ++ t = u2 :=
      ⟨t2 ++ t1, by rw [← List.append_assoc, ht2, ht1]⟩
    obtain ⟨t3, ht3⟩ := hPfp
    refine ⟨hsok, ?_, ?_, ?_, ?_, ?_, ?_, ?_, ?_, ?_⟩
    · intro c hc
      simp at hc
    · rfl
    · exact fun hm => splitAtFirst_fst_not_mem u2 '#'
        (splitAtFirst_fst_subset _ '?' _ hm)
    · exact splitAtFirst_fst_not_mem _ '?'
    · intro c hc
      simp at hc
    · intro c hc
      exact hu2clean c (mem_of_firstpart _ _ _ ht3 hc)
    · exact fun hne => absurd rfl hne
    · exact fun hs0 _ => splitScheme_fail_of_firstpart _ _ _ ht3 (hbare1 hs0)
    · exact fun hs0 _ => headFails_of_firstpart _ _ _ ht3 (hbare2 hs0)

theorem urlsplitE_inv (u : Chars) (r : SplitResult) (h : urlsplitE u = .ok r) :
    SplitInv r := by
  rcases splitScheme_eq_fail_or (cleanUrl u) with hfail |
    ⟨a, b, hab, hane, hha, hall, hnc, hsucc⟩
  · exact urlsplitE_inv_core u [] (cleanUrl u) r h hfail (Or.inl rfl)
      (cleanUrl_unsafe_free u) (fun _ => hfail) (fun _ => cleanUrl_headFails u)
  · have hsne : a.map Char.toLower ≠ [] := by
      intro he
      rcases a with _ | ⟨c, a2⟩
      · exact hane rfl
      · simp at he
    exact urlsplitE_inv_core u (a.map Char.toLower) b r h hsucc
      (Or.inr (schemeOK_mapLower a hane hha hall))
      (by
        intro c hc
        exact cleanUrl_unsafe_free u c (by
          rw [hab]
          exact List.mem_append.mpr (Or.inr (List.mem_cons_of_mem _ hc))))
      (fun hs0 => absurd hs0 hsne) (fun hs0 => absurd hs0 hsne)

theorem urlparseE_inv (u : Chars) (r : ParseResult) (h : urlparseE u = .ok r) :
    PartsInv r := by
  match hsp : urlsplitE u with
  | .error e =>
    rw [urlparseE_err_eq u e hsp] at h
    exact absurd h (by simp)
  | .ok r0 =>
    have hinv := urlsplitE_inv u r0 hsp
    rw [urlparseE_ok_eq u r0 hsp] at h
    by_cases hc : uses_params.contains r0.scheme = true ∧ r0.path.contains ';' = true
    · rw [if_pos hc] at h
      injection h with h
      subst h
      obtain ⟨t, htp⟩ := splitparams_fst_firstpart r0.path
      refine ⟨hinv.scheme_ok, hinv.netloc_delim, hinv.netloc_brackets, ?_, ?_,
        hinv.clean_netloc, ?_, ?_, ?_, ?_, ?_⟩
      · exact fun hm => hinv.path_hash (mem_of_firstpart _ _ _ htp hm)
      · exact fun hm => hinv.path_query (mem_of_firstpart _ _ _ htp hm)
      · exact fun c hc2 => hinv.clean_path c (mem_of_firstpart _ _ _ htp hc2)
      · exact fun hne => headFails_of_firstpart _ _ _ htp (hinv.netloc_path hne)
      · exact fun hs0 hn0 =>
          splitScheme_fail_of_firstpart _ _ _ htp (hinv.bare_scheme hs0 hn0)
      · exact fun hs0 hn0 => headFails_of_firstpart _ _ _ htp (hinv.bare_head hs0 hn0)
      · exact fun _ => splitparams_fst_paramsFree r0.path
    · rw [if_neg hc] at h
      injection h with h
      subst h
      refine ⟨hinv.scheme_ok, hinv.netloc_delim, hinv.netloc_brackets, hinv.path_hash,
        hinv.path_query, hinv.clean_netloc, hinv.clean_path, hinv.netloc_path,
        hinv.bare_scheme, hinv.bare_head, ?_⟩
      intro hu
      have hncon : ¬(r0.path.contains ';' = true) := fun hcon => hc ⟨hu, hcon⟩
      refine paramsFree_of_no_semi _ ?_
      intro hm
      exact hncon (by simpa using hm)

/-! ### Reparsing a reassembled URL -/

theorem clean_cons (c : Char) (l : Chars) (hc : isUnsafeByte c = false)
    (hl : ∀ x ∈ l, isUnsafeByte x = false) :
    ∀ x ∈ c :: l, isUnsafeByte x = false := by
  intro x hx
  rcases List.mem_cons.mp hx with h | h
  · subst h
    exact hc
  · exact hl x h

theorem clean_append (a b : Chars) (ha : ∀ x ∈ a, isUnsafeByte x = false)
    (hb : ∀ x ∈ b, isUnsafeByte x = false) :
    ∀ x ∈ a ++ b, isUnsafeByte x = false := by
  intro x hx
  rcases List.mem_append.mp hx with h | h
  · exact ha x h
  · exact hb x h

theorem clean_scheme (s : Chars) (hall : s.all isSchemeChar = true) :
    ∀ x ∈ s, isUnsafeByte x = false :=
  fun x hx => isSchemeChar_not_unsafe (List.all_eq_true.mp hall x hx)

theorem headFails_c0_of_headAlpha (s x : Chars) (h : headAlpha s = true) :
    headFails isC0Space (s ++ x) := by
  match s, h with
  | [], h => exact absurd h (by decide)
  | c :: rest, h => exact isAlpha_not_c0 h

theorem headFails_c0_slash (l : Chars) : headFails isC0Space ('/' :: l) := by
  show isC0Space '/' = false
  decide

theorem headFails_delim_slash (l : Chars) :
    headFails (fun c => !isNetlocDelim c) ('/' :: l) := by
  show (!isNetlocDelim '/') = false
  decide

theorem headFails_delim_of_head_slash (p : Chars)
    (h : ¬(p ≠ [] ∧ p.head? ≠ some '/')) :
    headFails (fun c => !isNetlocDelim c) p := by
  match p, h with
  | [], _ => trivial
  | c :: xs, h =>
    have hc2 : c = '/' := by
      by_contra hcc
      exact h ⟨by simp, by simpa using hcc⟩
    subst hc2
    exact headFails_delim_slash xs

theorem take2_cons_slash_ne (p : Chars) (h : p.head? ≠ some '/') :
    ('/' :: p : Chars).take 2 ≠ ['/', '/'] := by
  match p, h with
  | [], _ => simp
  | c :: xs, h =>
    intro he
    rw [List.take_succ_cons] at he
    injection he with h1 h2
    rw [List.take_succ_cons] at h2
    injection h2 with h3 h4
    exact h (by rw [h3]; rfl)

theorem urlparseE_ok_eq5 (u s n p q f : Chars)
    (h : urlsplitE u = .ok ⟨s, n, p, q, f⟩) :
    urlparseE u =
      if uses_params.contains s ∧ p.contains ';' then
        .ok ⟨s, n, (splitparams p).1, (splitparams p).2, q, f⟩
      else .ok ⟨s, n, p, [], q, f⟩ :=
  urlparseE_ok_eq u _ h

theorem urlparseE_assemble_scheme (s n p : Chars)
    (hane : s ≠ []) (hha : headAlpha s = true) (hall : s.all isSchemeChar = true)
    (hlow : s.map Char.toLower = s)
    (hnd : ∀ c ∈ n, isNetlocDelim c = false)
    (hbr : ((n.contains '[' && !n.contains ']') ||
      (n.contains ']' && !n.contains '[')) = false)
    (hcn : ∀ c ∈ n, isUnsafeByte c = false)
    (hcp : ∀ c ∈ p, isUnsafeByte c = false)
    (hph : '#' ∉ p) (hpq : '?' ∉ p)
    (hpf : headFails (fun c => !isNetlocDelim c) p)
    (hparams : uses_params.contains s = true → ParamsFree p) :
    urlparseE (s ++ ':' :: ('/' :: '/' :: (n ++ p))) = .ok ⟨s, n, p, [], [], []⟩ := by
  have hvclean : ∀ c ∈ s ++ ':' :: ('/' :: '/' :: (n ++ p)), isUnsafeByte c = false :=
    clean_append _ _ (clean_scheme s hall)
      (clean_cons _ _ (by decide) (clean_cons _ _ (by decide)
        (clean_cons _ _ (by decide) (clean_append _ _ hcn hcp))))
  have hcv : cleanUrl (s ++ ':' :: ('/' :: '/' :: (n ++ p))) =
      s ++ ':' :: ('/' :: '/' :: (n ++ p)) :=
    cleanUrl_eq_self _ (headFails_c0_of_headAlpha s _ hha) hvclean
  have hsplit : splitScheme (cleanUrl (s ++ ':' :: ('/' :: '/' :: (n ++ p)))) =
      (s, '/' :: '/' :: (n ++ p)) := by
    rw [hcv]
    exact splitScheme_attach s _ hane hall hlow hha
  have hnl : splitNetloc (('/' :: '/' :: (n ++ p) : Chars).drop 2) = (n, p) := by
    show splitNetloc (n ++ p) = (n, p)
    exact splitNetloc_append n p hnd hpf
  obtain ⟨hq, hf⟩ := pathSplit_id p hph hpq
  have hse : urlsplitE (s ++ ':' :: ('/' :: '/' :: (n ++ p))) =
      .ok ⟨s, n, p, [], []⟩ := by
    rw [urlsplitE_netloc_eq _ s _ n p hsplit rfl hnl hbr, hq, hf]
  rw [urlparseE_ok_eq5 _ s n p [] [] hse]
  by_cases hc : uses_params.contains s = true ∧ p.contains ';' = true
  · rw [if_pos hc, splitparams_of_paramsFree p (hparams hc.1)]
  · rw [if_neg hc]

theorem urlparseE_assemble_noscheme (n p : Chars)
    (hnd : ∀ c ∈ n, isNetlocDelim c = false)
    (hbr : ((n.contains '[' && !n.contains ']') ||
      (n.contains ']' && !n.contains '[')) = false)
    (hcn : ∀ c ∈ n, isUnsafeByte c = false)
    (hcp : ∀ c ∈ p, isUnsafeByte c = false)
    (hph : '#' ∉ p) (hpq : '?' ∉ p)
    (hpf : headFails (fun c => !isNetlocDelim c) p)
    (hparams : ParamsFree p) :
    urlparseE ('/' :: '/' :: (n ++ p)) = .ok ⟨[], n, p, [], [], []⟩ := by
  have hvclean : ∀ c ∈ ('/' :: '/' :: (n ++ p) : Chars), isUnsafeByte c = false :=
    clean_cons _ _ (by decide) (clean_cons _ _ (by decide)
      (clean_append _ _ hcn hcp))
  have hcv : cleanUrl ('/' :: '/' :: (n ++ p)) = '/' :: '/' :: (n ++ p) :=
    cleanUrl_eq_self _ (headFails_c0_slash _) hvclean
  have hsplit : splitScheme (cleanUrl ('/' :: '/' :: (n ++ p))) =
      ([], '/' :: '/' :: (n ++ p)) := by
    rw [hcv]
    exact splitScheme_fail_of_not_headAlpha _ (by
      show ('/' : Char).isAlpha = false
      decide)
  have hnl : splitNetloc (('/' :: '/' :: (n ++ p) : Chars).drop 2) = (n, p) := by
    show splitNetloc (n ++ p) = (n, p)
    exact splitNetloc_append n p hnd hpf
  obtain ⟨hq, hf⟩ := pathSplit_id p hph hpq
  have hse : urlsplitE ('/' :: '/' :: (n ++ p)) = .ok ⟨[], n, p, [], []⟩ := by
    rw [urlsplitE_netloc_eq _ [] _ n p hsplit rfl hnl hbr, hq, hf]
  rw [urlparseE_ok_eq5 _ [] n p [] [] hse]
  by_cases hc : uses_params.contains ([] : Chars) = true ∧ p.contains ';' = true
  · rw [if_pos hc, splitparams_of_paramsFree p hparams]
  · rw [if_neg hc]

theorem urlparseE_assemble_plain (s p : Chars)
    (hane : s ≠ []) (hha : headAlpha s = true) (hall : s.all isSchemeChar = true)
    (hlow : s.map Char.toLower = s)
    (hcp : ∀ c ∈ p, isUnsafeByte c = false)
    (htk : ¬p.take 2 = ['/', '/'])
    (hph : '#' ∉ p) (hpq : '?' ∉ p)
    (hparams : uses_params.contains s = true → ParamsFree p) :
    urlparseE (s ++ ':' :: p) = .ok ⟨s, [], p, [], [], []⟩ := by
  have hvclean : ∀ c ∈ s ++ ':' :: p, isUnsafeByte c = false :=
    clean_append _ _ (clean_scheme s hall) (clean_cons _ _ (by decide) hcp)
  have hcv : cleanUrl (s ++ ':' :: p) = s ++ ':' :: p :=
    cleanUrl_eq_self _ (headFails_c0_of_headAlpha s _ hha) hvclean
  have hsplit : splitScheme (cleanUrl (s ++ ':' :: p)) = (s, p) := by
    rw [hcv]
    exact splitScheme_attach s _ hane hall hlow hha
  obtain ⟨hq, hf⟩ := pathSplit_id p hph hpq
  have hse : urlsplitE (s ++ ':' :: p) = .ok ⟨s, [], p, [], []⟩ := by
    rw [urlsplitE_plain_eq _ s p hsplit htk, hq, hf]
  rw [urlparseE_ok_eq5 _ s [] p [] [] hse]
  by_cases hc : uses_params.contains s = true ∧ p.contains ';' = true
  · rw [if_pos hc, splitparams_of_paramsFree p (hparams hc.1)]
  · rw [if_neg hc]

theorem urlparseE_assemble_bare (p : Chars)
    (hbs : splitScheme p = ([], p)) (hbh : headFails isC0Space p)
    (hcp : ∀ c ∈ p, isUnsafeByte c = false)
    (htk : ¬p.take 2 = ['/', '/'])
    (hph : '#' ∉ p) (hpq : '?' ∉ p)
    (hparams : ParamsFree p) :
    urlparseE p = .ok ⟨[], [], p, [], [], []⟩ := by
  have hcv : cleanUrl p = p := cleanUrl_eq_self p hbh hcp
  have hsplit : splitScheme (cleanUrl p) = ([], p) := by
    rw [hcv]
    exact hbs
  obtain ⟨hq, hf⟩ := pathSplit_id p hph hpq
  have hse : urlsplitE p = .ok ⟨[], [], p, [], []⟩ := by
    rw [urlsplitE_plain_eq _ [] p hsplit htk, hq, hf]
  rw [urlparseE_ok_eq5 _ [] [] p [] [] hse]
  by_cases hc : uses_params.contains ([] : Chars) = true ∧ p.contains ';' = true
  · rw [if_pos hc, splitparams_of_paramsFree p hparams]
  · rw [if_neg hc]

theorem unsplit_reparse (r : ParseResult) (hinv : PartsInv r)
    (hcond : r.netloc ≠ [] ∨ r.path.take 2 ≠ ['/', '/']) :
    ∃ r2 : ParseResult,
      urlparseE (urlunsplit3 r.scheme r.netloc r.path) = .ok r2 ∧
      urlunsplit3 r2.scheme r2.netloc r2.path =
        urlunsplit3 r.scheme r.netloc r.path := by
  obtain ⟨s, n, p, pa, q, f⟩ := r
  obtain ⟨hso, hnd, hbr, hph, hpq, hcn, hcp, hnp, hbs, hbh, hpa⟩ := hinv
  by_cases hn0 : n = []
  · subst hn0
    have htk : p.take 2 ≠ ['/', '/'] := by
      rcases hcond with h1 | h1
      · exact absurd rfl h1
      · exact h1
    rcases hso with hs0 | ⟨hha, hall, hlow⟩
    · subst hs0
      have hcneg : ¬((([] : Chars)) ≠ [] ∨ ((([] : Chars)) ≠ [] ∧
          uses_netloc.contains ([] : Chars) = true ∧ p.take 2 ≠ ['/', '/'])) := by
        rintro (h1 | ⟨h1, h2, h3⟩) <;> exact h1 rfl
      refine ⟨⟨[], [], p, [], [], []⟩, ?_, rfl⟩
      rw [urlunsplit3_plain [] p hcneg]
      exact urlparseE_assemble_bare p (hbs rfl rfl) (hbh rfl rfl) hcp htk hph hpq
        (hpa (by show uses_params.contains ([] : Chars) = true; decide))
    · have hsne : s ≠ [] := by
        intro he
        rw [he] at hha
        have hha2 : headAlpha ([] : Chars) = true := hha
        exact absurd hha2 (by decide)
      by_cases hu : uses_netloc.contains s = true
      · by_cases hpl : p ≠ [] ∧ p.head? ≠ some '/'
        · refine ⟨⟨s, [], '/' :: p, [], [], []⟩, ?_, ?_⟩
          · rw [urlunsplit3_affix_slash s [] p (Or.inr ⟨hsne, hu, htk⟩) hpl hsne]
            exact urlparseE_assemble_scheme s [] ('/' :: p) hsne hha hall hlow
              (by intro c hc; simp at hc) rfl
              (by intro c hc; simp at hc)
              (clean_cons _ _ (by decide) hcp)
              (by
                intro hm
                rcases List.mem_cons.mp hm with h1 | h1
                · exact absurd h1.symm (by decide)
                · exact hph h1)
              (by
                intro hm
                rcases List.mem_cons.mp hm with h1 | h1
                · exact absurd h1.symm (by decide)
                · exact hpq h1)
              (headFails_delim_slash p)
              (fun hup => paramsFree_cons_slash p (hpa hup))
          · rw [urlunsplit3_affix_slash s [] p (Or.inr ⟨hsne, hu, htk⟩) hpl hsne,
              urlunsplit3_affix s [] ('/' :: p)
                (Or.inr ⟨hsne, hu, take2_cons_slash_ne p hpl.2⟩) (by simp) hsne]
        · refine ⟨⟨s, [], p, [], [], []⟩, ?_, rfl⟩
          rw [urlunsplit3_affix s [] p (Or.inr ⟨hsne, hu, htk⟩) hpl hsne]
          exact urlparseE_assemble_scheme s [] p hsne hha hall hlow
            (by intro c hc; simp at hc) rfl (by intro c hc; simp at hc)
            hcp hph hpq (headFails_delim_of_head_slash p hpl) hpa
      · have hcneg : ¬((([] : Chars)) ≠ [] ∨ (s ≠ [] ∧
            uses_netloc.contains s = true ∧ p.take 2 ≠ ['/', '/'])) := by
          rintro (h1 | ⟨h1, h2, h3⟩)
          · exact h1 rfl
          · exact hu h2
        refine ⟨⟨s, [], p, [], [], []⟩, ?_, rfl⟩
        rw [urlunsplit3_plain_scheme s [] p hcneg hsne]
        exact urlparseE_assemble_plain s p hsne hha hall hlow hcp htk hph hpq hpa
  · have hps := head_slash_of_delim p (hnp hn0) hph hpq
    have hpl : ¬(p ≠ [] ∧ p.head? ≠ some '/') := by
      rintro ⟨h1, h2⟩
      rcases hps with h3 | h3
      · exact h1 h3
      · exact h2 h3
    have hpf : headFails (fun c => !isNetlocDelim c) p := hnp hn0
    rcases hso with hs0 | ⟨hha, hall, hlow⟩
    · subst hs0
      refine ⟨⟨[], n, p, [], [], []⟩, ?_, rfl⟩
      rw [urlunsplit3_affix_noscheme n p (Or.inl hn0) hpl]
      exact urlparseE_assemble_noscheme n p hnd hbr hcn hcp hph hpq hpf
        (hpa (by show uses_params.contains ([] : Chars) = true; decide))
    · have hsne : s ≠ [] := by
        intro he
        rw [he] at hha
        have hha2 : headAlpha ([] : Chars) = true := hha
        exact absurd hha2 (by decide)
      refine ⟨⟨s, n, p, [], [], []⟩, ?_, rfl⟩
      rw [urlunsplit3_affix s n p (Or.inl hn0) hpl hsne]
      exact urlparseE_assemble_scheme s n p hsne hha hall hlow hnd hbr hcn hcp
        hph hpq hpf hpa

theorem normList_fixpoint (u v : Chars) (r : ParseResult)
    (hr : urlparseE u = .ok r)
    (hv : normList u = .ok v)
    (hcond : r.netloc ≠ [] ∨ r.path.take 2 ≠ ['/', '/']) :
    normList v = .ok v := by
  have hinv := urlparseE_inv u r hr
  have hveq : v = urlunsplit3 r.scheme r.netloc r.path := by
    rw [normList_ok_eq u r hr] at hv
    injection hv with hv
    exact hv.symm
  obtain ⟨r2, h1, h2⟩ := unsplit_reparse r hinv hcond
  rw [hveq, normList_ok_eq _ r2 h1, h2]

theorem paramsFree_nil : ParamsFree ([] : Chars) := by
  unfold ParamsFree paramsSeg
  rw [show splitLastSlash [] = none from rfl]
  simp only [Option.elim]
  simp

theorem paramsFree_of_append_delim (z u3 : Chars)
    (hf : headFails (fun c => !isNetlocDelim c) u3)
    (hph : '#' ∉ u3) (hpq : '?' ∉ u3)
    (hall : ParamsFree (z ++ u3)) : ParamsFree u3 := by
  rcases head_slash_of_delim u3 hf hph hpq with he | he
  · subst he
    exact paramsFree_nil
  · match hsl : splitLastSlash u3 with
    | none =>
      have h2 := splitLastSlash_none u3 hsl
      have hmem : '/' ∈ u3 := by
        match u3, he with
        | c :: xs, he =>
          have hc : c = '/' := by
            have h3 : some c = some '/' := he
            injection h3
          subst hc
          exact List.mem_cons_self _ _
      exact absurd hmem h2
    | some (a0, b0) =>
      have hz := splitLastSlash_append_right z u3 a0 b0 hsl
      unfold ParamsFree paramsSeg at hall ⊢
      rw [hz] at hall
      rw [hsl]
      simp only [Option.elim] at hall ⊢
      exact hall

/-- Fixpoint of normalization for outputs whose own parse has a non-empty
netloc, covering also the inputs excluded from normList_fixpoint (empty
netloc with a double-slash path): there the reassembled string reparses
with the residual path promoted into a netloc, and reassembling those parts
restores the same string. -/
theorem normList_fix_of_netloc (u v : Chars) (r : ParseResult)
    (hv : normList u = .ok v)
    (hp : urlparseE v = .ok r) (hne : r.netloc ≠ []) :
    normList v = .ok v := by
  match hr0 : urlparseE u with
  | .error e =>
    rw [normList_err_eq u e hr0] at hv
    exact absurd hv (by simp)
  | .ok r0 =>
    by_cases hcond : r0.netloc ≠ [] ∨ r0.path.take 2 ≠ ['/', '/']
    · exact normList_fixpoint u v r0 hr0 hv hcond
    · push_neg at hcond
      obtain ⟨hn0, htk0⟩ := hcond
      have hinv := urlparseE_inv u r0 hr0
      have hveq : v = urlunsplit3 r0.scheme r0.netloc r0.path := by
        rw [normList_ok_eq u r0 hr0] at hv
        injection hv with hv
        exact hv.symm
      obtain ⟨s, n, p, pa, q0, f0⟩ := r0
      obtain ⟨hso, hnd0, hbr0, hph, hpq, hcn0, hcp, hnp0, hbs, hbh, hpa⟩ := hinv
      have hn0v : n = [] := hn0
      subst hn0v
      have htkv : p.take 2 = ['/', '/'] := htk0
      have hpsplit : p = '/' :: '/' :: p.drop 2 := by
        conv_lhs => rw [← List.take_append_drop 2 p]
        rw [htkv]
        rfl
      rcases hnl : splitNetloc (p.drop 2) with ⟨n2, u3⟩
      have hn1 : (p.drop 2).takeWhile (fun c => !isNetlocDelim c) = n2 :=
        congrArg Prod.fst hnl
      have hn2 : (p.drop 2).dropWhile (fun c => !isNetlocDelim c) = u3 :=
        congrArg Prod.snd hnl
      have hnu3 : n2 ++ u3 = p.drop 2 := by
        rw [← hn1, ← hn2]
        exact List.takeWhile_append_dropWhile _ _
      have hu3f : headFails (fun c => !isNetlocDelim c) u3 := by
        rw [← hn2]
        exact dropWhile_headFails_self _ _
      have hu3p : ∀ c ∈ u3, c ∈ p := by
        intro c hc
        rw [hpsplit]
        refine List.mem_cons_of_mem _ (List.mem_cons_of_mem _ ?_)
        rw [← hnu3]
        exact List.mem_append.mpr (Or.inr hc)
      have hu3h : '#' ∉ u3 := fun hm => hph (hu3p _ hm)
      have hu3q : '?' ∉ u3 := fun hm => hpq (hu3p _ hm)
      have hzap : ('/' :: '/' :: n2 : Chars) ++ u3 = p := by
        conv_rhs => rw [hpsplit]
        show '/' :: '/' :: (n2 ++ u3) = '/' :: '/' :: p.drop 2
        rw [hnu3]
      obtain ⟨hq3, hf3⟩ := pathSplit_id u3 hu3h hu3q
      have hp1 : ¬(u3 ≠ [] ∧ u3.head? ≠ some '/') := by
        rintro ⟨h1, h2⟩
        rcases head_slash_of_delim u3 hu3f hu3h hu3q with h3 | h3
        · exact h1 h3
        · exact h2 h3
      rcases hso with hs0 | ⟨hha, hall, hlow⟩
      · have hs0v : s = [] := hs0
        subst hs0v
        have hvp : v = p := by
          rw [hveq]
          exact urlunsplit3_plain [] p (by
            rintro (h1 | ⟨h1, h2, h3⟩)
            · exact h1 rfl
            · exact h3 htkv)
        rw [hvp] at hp ⊢
        have hcv : cleanUrl p = p := cleanUrl_eq_self p (hbh rfl rfl) hcp
        have hsplit : splitScheme (cleanUrl p) = ([], p) := by
          rw [hcv]
          exact hbs rfl rfl
        by_cases hgd : ((n2.contains '[' && !n2.contains ']') ||
            (n2.contains ']' && !n2.contains '[')) = true
        · rw [urlparseE_err_eq p _
            (urlsplitE_netloc_err p [] p n2 u3 hsplit htkv hnl hgd)] at hp
          exact absurd hp (by simp)
        · have hgd2 : ((n2.contains '[' && !n2.contains ']') ||
              (n2.contains ']' && !n2.contains '[')) = false := by
            simpa using hgd
          have hse : urlsplitE p = .ok ⟨[], n2, u3, [], []⟩ := by
            rw [urlsplitE_netloc_eq p [] p n2 u3 hsplit htkv hnl hgd2, hq3, hf3]
          have hpe : urlparseE p = .ok ⟨[], n2, u3, [], [], []⟩ := by
            rw [urlparseE_ok_eq5 p [] n2 u3 [] [] hse]
            by_cases hc2 : uses_params.contains ([] : Chars) = true ∧
                u3.contains ';' = true
            · rw [if_pos hc2, splitparams_of_paramsFree u3
                (paramsFree_of_append_delim ('/' :: '/' :: n2) u3 hu3f hu3h hu3q
                  (by rw [hzap]; exact hpa hc2.1))]
            · rw [if_neg hc2]
          rw [hpe] at hp
          injection hp with hp
          subst hp
          have hn2ne : n2 ≠ [] := hne
          rw [normList_ok_eq p _ hpe]
          show Except.ok (urlunsplit3 ([] : Chars) n2 u3) = Except.ok p
          rw [urlunsplit3_affix_noscheme n2 u3 (Or.inl hn2ne) hp1, hpsplit, hnu3]
      · have hsne : s ≠ [] := by
          intro he
          rw [he] at hha
          have hha2 : headAlpha ([] : Chars) = true := hha
          exact absurd hha2 (by decide)
        have hvp : v = s ++ ':' :: p := by
          rw [hveq]
          exact urlunsplit3_plain_scheme s [] p (by
            rintro (h1 | ⟨h1, h2, h3⟩)
            · exact h1 rfl
            · exact h3 htkv) hsne
        rw [hvp] at hp ⊢
        have hvclean : ∀ c ∈ s ++ ':' :: p, isUnsafeByte c = false :=
          clean_append _ _ (clean_scheme s hall) (clean_cons _ _ (by decide) hcp)
        have hcv : cleanUrl (s ++ ':' :: p) = s ++ ':' :: p :=
          cleanUrl_eq_self _ (headFails_c0_of_headAlpha s _ hha) hvclean
        have hsplit : splitScheme (cleanUrl (s ++ ':' :: p)) = (s, p) := by
          rw [hcv]
          exact splitScheme_attach s _ hsne hall hlow hha
        by_cases hgd : ((n2.contains '[' && !n2.contains ']') ||
            (n2.contains ']' && !n2.contains '[')) = true
        · rw [urlparseE_err_eq _ _
            (urlsplitE_netloc_err _ s p n2 u3 hsplit htkv hnl hgd)] at hp
          exact absurd hp (by simp)
        · have hgd2 : ((n2.contains '[' && !n2.contains ']') ||
              (n2.contains ']' && !n2.contains '[')) = false := by
            simpa using hgd
          have hse : urlsplitE (s ++ ':' :: p) = .ok ⟨s, n2, u3, [], []⟩ := by
            rw [urlsplitE_netloc_eq _ s p n2 u3 hsplit htkv hnl hgd2, hq3, hf3]
          have hpe : urlparseE (s ++ ':' :: p) = .ok ⟨s, n2, u3, [], [], []⟩ := by
            rw [urlparseE_ok_eq5 _ s n2 u3 [] [] hse]
            by_cases hc2 : uses_params.contains s = true ∧ u3.contains ';' = true
            · rw [if_pos hc2, splitparams_of_paramsFree u3
                (paramsFree_of_append_delim ('/' :: '/' :: n2) u3 hu3f hu3h hu3q
                  (by rw [hzap]; exact hpa hc2.1))]
            · rw [if_neg hc2]
          rw [hpe] at hp
          injection hp with hp
          subst hp
          have hn2ne : n2 ≠ [] := hne
          rw [normList_ok_eq _ _ hpe]
          show Except.ok (urlunsplit3 s n2 u3) = Except.ok (s ++ ':' :: p)
          rw [urlunsplit3_affix s n2 u3 (Or.inl hn2ne) hp1 hsne, hpsplit, hnu3]

/-! ### is_valid_url and the fixpoint at the String level -/

theorem is_valid_url_ok_eq (url base_domain : String) (r : ParseResult)
    (hp : urlparseE url.data = .ok r) :
    is_valid_url url base_domain =
      if r.scheme = [] ∨ r.netloc = [] then false
      else if String.mk (r.netloc.map Char.toLower) ≠ base_domain then false
      else !(skip_extensions.any fun e =>
        e.data.isSuffixOf (r.path.map Char.toLower)) := by
  unfold is_valid_url
  rw [hp]

theorem is_valid_url_parse (url base_domain : String)
    (h : is_valid_url url base_domain = true) :
    ∃ r, urlparseE url.data = .ok r ∧ r.scheme ≠ [] ∧ r.netloc ≠ [] := by
  match hp : urlparseE url.data with
  | .error e =>
    have h2 : is_valid_url url base_domain = false := by
      unfold is_valid_url
      rw [hp]
    rw [h2] at h
    exact absurd h (by simp)
  | .ok r =>
    rw [is_valid_url_ok_eq url base_domain r hp] at h
    refine ⟨r, rfl, ?_, ?_⟩
    · intro he
      rw [if_pos (Or.inl he)] at h
      exact absurd h (by simp)
    · intro he
      rw [if_pos (Or.inr he)] at h
      exact absurd h (by simp)

/-- Every URL that normalize_url produced and is_valid_url accepts is a
fixpoint of normalize_url: validity guarantees a non-empty netloc. -/
theorem normalize_fix_of_valid (a url base_domain : String)
    (hn : normalize_url a = .ok url)
    (hval : is_valid_url url base_domain = true) :
    normalize_url url = .ok url := by
  obtain ⟨r, hp, _, hne⟩ := is_valid_url_parse url base_domain hval
  unfold normalize_url at hn ⊢
  match hna : normList a.data with
  | .error e =>
    rw [hna] at hn
    exact absurd hn (by simp [Except.map])
  | .ok l =>
    rw [hna] at hn
    have h2 : Except.ok (String.mk l) = Except.ok url := hn
    injection h2 with h2
    subst h2
    have hp2 : urlparseE l = .ok r := hp
    have hfix : normList l = .ok l := normList_fix_of_netloc a.data l r hna hp2 hne
    show Except.map (fun l => String.mk l) (normList (String.mk l).data) =
      Except.ok (String.mk l)
    rw [show (String.mk l).data = l from rfl, hfix]
    rfl

/-! ## Lemmas about discAdd -/

theorem discAdd_keys (d : Disc) (dep : Nat) (url : String) :
    ∀ k ∈ discKeys (discAdd d dep url), k ∈ discKeys d ∨ k = dep := by
  induction d with
  | nil => intro k hk; simp [discAdd, discKeys] at hk; right; exact hk
  | cons hd tl ih =>
    intro k hk
    obtain ⟨k0, us⟩ := hd
    by_cases h : k0 = dep
    · subst h
      simp [discAdd, discKeys] at hk ⊢
      tauto
    · simp [discAdd, h, discKeys] at hk ⊢
      rcases hk with hk | hk
      · tauto
      · rcases ih k (by simpa [discKeys] using hk) with h2 | h2
        · simp [discKeys] at h2; tauto
        · tauto

theorem discAdd_total_le (d : Disc) (dep : Nat) (url : String) :
    discTotal (discAdd d dep url) ≤ discTotal d + 1 := by
  induction d with
  | nil => simp [discAdd, discTotal]
  | cons hd tl ih =>
    obtain ⟨k0, us⟩ := hd
    by_cases h : k0 = dep
    · subst h
      by_cases hu : url ∈ us
      · simp [discAdd, hu, discTotal]
      · simp [discAdd, hu, discTotal]
        omega
    · simp [discAdd, h, discTotal] at ih ⊢
      omega

theorem discAdd_urls (d : Disc) (dep : Nat) (url : String) :
    ∀ u ∈ discUrls (discAdd d dep url), u ∈ discUrls d ∨ u = url := by
  induction d with
  | nil => intro u hu; simp [discAdd, discUrls] at hu; right; exact hu
  | cons hd tl ih =>
    intro u hu
    obtain ⟨k0, us⟩ := hd
    by_cases h : k0 = dep
    · subst h
      by_cases hm : url ∈ us
      · rw [discAdd, if_pos rfl, if_pos hm] at hu
        left; exact hu
      · rw [discAdd, if_pos rfl, if_neg hm] at hu
        rw [discUrls] at hu ⊢
        rcases List.mem_append.mp hu with h2 | h2
        · rcases List.mem_append.mp h2 with h3 | h3
          · left; exact List.mem_append.mpr (Or.inl h3)
          · right; simpa using h3
        · left; exact List.mem_append.mpr (Or.inr h2)
    · rw [discAdd, if_neg h] at hu
      rw [discUrls] at hu ⊢
      rcases List.mem_append.mp hu with h2 | h2
      · left; exact List.mem_append.mpr (Or.inl h2)
      · rcases ih u h2 with h3 | h3
        · left; exact List.mem_append.mpr (Or.inr h3)
        · right; exact h3

theorem discAdd_urls_nodup (dep : Nat) (url : String) :
    ∀ (d : Disc), (discUrls d).Nodup → url ∉ discUrls d →
      (discUrls (discAdd d dep url)).Nodup := by
  intro d
  induction d with
  | nil =>
    intro _ _
    simp [discAdd, discUrls]
  | cons hd tl ih =>
    intro hn hu
    obtain ⟨k, us⟩ := hd
    rw [discAdd]
    by_cases hk : k = dep
    · rw [if_pos hk]
      have hu2 : url ∉ us := fun hm => hu (by
        show url ∈ us ++ discUrls tl
        exact List.mem_append.mpr (Or.inl hm))
      rw [if_neg hu2]
      show ((us ++ [url]) ++ discUrls tl).Nodup
      rw [List.append_assoc]
      show (us ++ (url :: discUrls tl)).Nodup
      rw [List.nodup_middle]
      have hu3 : url ∉ us ++ discUrls tl := hu
      have hn3 : (us ++ discUrls tl).Nodup := hn
      exact List.nodup_cons.mpr ⟨hu3, hn3⟩
    · rw [if_neg hk]
      show (us ++ discUrls (discAdd tl dep url)).Nodup
      have hn2 : (us ++ discUrls tl).Nodup := hn
      rw [List.nodup_append] at hn2 ⊢
      obtain ⟨h1, h2, h3⟩ := hn2
      have hu3 : url ∉ discUrls tl := fun hm => hu (by
        show url ∈ us ++ discUrls tl
        exact List.mem_append.mpr (Or.inr hm))
      refine ⟨h1, ih h2 hu3, ?_⟩
      intro x hx1 hx2
      rcases discAdd_urls tl dep url x hx2 with h4 | h4
      · exact h3 hx1 h4
      · subst h4
        exact hu (by
          show x ∈ us ++ discUrls tl
          exact List.mem_append.mpr (Or.inl hx1))

theorem discAdd_mem (d : Disc) (dep : Nat) (url : String) :
    ∀ k us u, (k, us) ∈ d → u ∈ us → ∃ us2, (k, us2) ∈ discAdd d dep url ∧ u ∈ us2 := by
  induction d with
  | nil => intro k us u h; simp at h
  | cons hd tl ih =>
    intro k us u h hu
    obtain ⟨k0, us0⟩ := hd
    rcases List.mem_cons.mp h with h | h
    · have h1 : k0 = k := congrArg Prod.fst h.symm
      have h2 : us0 = us := congrArg Prod.snd h.symm
      subst h1; subst h2
      by_cases hk : k0 = dep
      · subst hk
        by_cases hm : url ∈ us0
        · refine ⟨us0, ?_, hu⟩
          rw [discAdd, if_pos rfl, if_pos hm]
          exact List.mem_cons_self _ _
        · refine ⟨us0 ++ [url], ?_, List.mem_append.mpr (Or.inl hu)⟩
          rw [discAdd, if_pos rfl, if_neg hm]
          exact List.mem_cons_self _ _
      · refine ⟨us0, ?_, hu⟩
        rw [discAdd, if_neg hk]
        exact List.mem_cons_self _ _
    · by_cases hk : k0 = dep
      · subst hk
        refine ⟨us, ?_, hu⟩
        rw [discAdd, if_pos rfl]
        exact List.mem_cons_of_mem _ h
      · obtain ⟨us2, h2, h3⟩ := ih k us u h hu
        refine ⟨us2, ?_, h3⟩
        rw [discAdd, if_neg hk]
        exact List.mem_cons_of_mem _ h2

/-! ## Lemmas about collectBatch -/

theorem collectBatch_mem_depth (cfg : Config) :
    ∀ (n : Nat) (q : List Task) (v : List String) (c : Nat) (t : Task),
      t ∈ (collectBatch cfg n q v c).1 → t.2 ≤ cfg.max_depth := by
  intro n
  induction n with
  | zero => intro q v c t ht; simp [collectBatch] at ht
  | succ n ih =>
    intro q v c t ht
    match q with
    | [] => simp [collectBatch] at ht
    | (url, depth) :: tl =>
      by_cases hcond : url ∈ v ∨ cfg.max_depth < depth ∨ cfg.max_pages_per_domain ≤ c
      · rw [collectBatch, if_pos hcond] at ht
        exact ih tl v c t ht
      · rw [collectBatch, if_neg hcond] at ht
        push_neg at hcond
        rcases List.mem_cons.mp ht with h | h
        · subst h; exact hcond.2.1
        · exact ih tl (url :: v) (c + 1) t h

theorem collectBatch_count (cfg : Config) :
    ∀ (n : Nat) (q : List Task) (v : List String) (c : Nat),
      (collectBatch cfg n q v c).2.2.2 = c + (collectBatch cfg n q v c).1.length := by
  intro n
  induction n with
  | zero => intro q v c; simp [collectBatch]
  | succ n ih =>
    intro q v c
    match q with
    | [] => simp [collectBatch]
    | (url, depth) :: tl =>
      by_cases hcond : url ∈ v ∨ cfg.max_depth < depth ∨ cfg.max_pages_per_domain ≤ c
      · rw [collectBatch, if_pos hcond]
        exact ih tl v c
      · rw [collectBatch, if_neg hcond]
        have := ih tl (url :: v) (c + 1)
        simp only [List.length_cons]
        omega

theorem collectBatch_count_le (cfg : Config) :
    ∀ (n : Nat) (q : List Task) (v : List String) (c : Nat),
      c ≤ cfg.max_pages_per_domain →
      (collectBatch cfg n q v c).2.2.2 ≤ cfg.max_pages_per_domain := by
  intro n
  induction n with
  | zero => intro q v c h; simpa [collectBatch] using h
  | succ n ih =>
    intro q v c h
    match q with
    | [] => simpa [collectBatch] using h
    | (url, depth) :: tl =>
      by_cases hcond : url ∈ v ∨ cfg.max_depth < depth ∨ cfg.max_pages_per_domain ≤ c
      · rw [collectBatch, if_pos hcond]
        exact ih tl v c h
      · rw [collectBatch, if_neg hcond]
        push_neg at hcond
        exact ih tl (url :: v) (c + 1) hcond.2.2

theorem collectBatch_visited (cfg : Config) :
    ∀ (n : Nat) (q : List Task) (v : List String) (c : Nat) (x : String),
      x ∈ (collectBatch cfg n q v c).2.2.1 ↔
        x ∈ (collectBatch cfg n q v c).1.map Prod.fst ∨ x ∈ v := by
  intro n
  induction n with
  | zero => intro q v c x; simp [collectBatch]
  | succ n ih =>
    intro q v c x
    match q with
    | [] => simp [collectBatch]
    | (url, depth) :: tl =>
      by_cases hcond : url ∈ v ∨ cfg.max_depth < depth ∨ cfg.max_pages_per_domain ≤ c
      · rw [collectBatch, if_pos hcond]
        exact ih tl v c x
      · rw [collectBatch, if_neg hcond]
        rw [ih tl (url :: v) (c + 1) x]
        simp only [List.map_cons, List.mem_cons]
        constructor
        · rintro (h | h | h)
          · exact Or.inl (Or.inr h)
          · exact Or.inl (Or.inl h)
          · exact Or.inr h
        · rintro ((h | h) | h)
          · exact Or.inr (Or.inl h)
          · exact Or.inl h
          · exact Or.inr (Or.inr h)

theorem collectBatch_batch_fresh (cfg : Config) :
    ∀ (n : Nat) (q : List Task) (v : List String) (c : Nat),
      ((collectBatch cfg n q v c).1.map Prod.fst).Nodup ∧
      ∀ t ∈ (collectBatch cfg n q v c).1, t.1 ∉ v := by
  intro n
  induction n with
  | zero => intro q v c; simp [collectBatch]
  | succ n ih =>
    intro q v c
    match q with
    | [] => simp [collectBatch]
    | (url, depth) :: tl =>
      by_cases hcond : url ∈ v ∨ cfg.max_depth < depth ∨ cfg.max_pages_per_domain ≤ c
      · rw [collectBatch, if_pos hcond]
        exact ih tl v c
      · rw [collectBatch, if_neg hcond]
        push_neg at hcond
        obtain ⟨hnodup, hfresh⟩ := ih tl (url :: v) (c + 1)
        constructor
        · simp only [List.map_cons, List.nodup_cons]
          refine ⟨?_, hnodup⟩
          intro hmem
          obtain ⟨t, ht, he⟩ := List.mem_map.mp hmem
          exact hfresh t ht (he ▸ List.mem_cons_self _ _)
        · intro t ht
          rcases List.mem_cons.mp ht with h | h
          · subst h; exact hcond.1
          · intro hv
            exact hfresh t h (List.mem_cons_of_mem _ hv)

theorem collectBatch_queue_mem (cfg : Config) :
    ∀ (n : Nat) (q : List Task) (v : List String) (c : Nat) (t : Task),
      t ∈ (collectBatch cfg n q v c).2.1 → t ∈ q := by
  intro n
  induction n with
  | zero => intro q v c t h; rw [collectBatch] at h; exact h
  | succ n ih =>
    intro q v c t h
    match q with
    | [] => simp [collectBatch] at h
    | (url, depth) :: tl =>
      by_cases hcond : url ∈ v ∨ cfg.max_depth < depth ∨ cfg.max_pages_per_domain ≤ c
      · rw [collectBatch, if_pos hcond] at h
        exact List.mem_cons_of_mem _ (ih tl v c t h)
      · rw [collectBatch, if_neg hcond] at h
        exact List.mem_cons_of_mem _ (ih tl (url :: v) (c + 1) t h)

theorem collectBatch_batch_mem (cfg : Config) :
    ∀ (n : Nat) (q : List Task) (v : List String) (c : Nat) (t : Task),
      t ∈ (collectBatch cfg n q v c).1 → t ∈ q := by
  intro n
  induction n with
  | zero => intro q v c t h; simp [collectBatch] at h
  | succ n ih =>
    intro q v c t h
    match q with
    | [] => simp [collectBatch] at h
    | (url, depth) :: tl =>
      by_cases hcond : url ∈ v ∨ cfg.max_depth < depth ∨ cfg.max_pages_per_domain ≤ c
      · rw [collectBatch, if_pos hcond] at h
        exact List.mem_cons_of_mem _ (ih tl v c t h)
      · rw [collectBatch, if_neg hcond] at h
        rcases List.mem_cons.mp h with h | h
        · subst h; exact List.mem_cons_self _ _
        · exact List.mem_cons_of_mem _ (ih tl (url :: v) (c + 1) t h)

theorem collectBatch_queue_sublist (cfg : Config) :
    ∀ (n : Nat) (q : List Task) (v : List String) (c : Nat),
      (collectBatch cfg n q v c).2.1.Sublist q := by
  intro n
  induction n with
  | zero => intro q v c; rw [collectBatch]
  | succ n ih =>
    intro q v c
    match q with
    | [] => simp [collectBatch]
    | (url, depth) :: tl =>
      by_cases hcond : url ∈ v ∨ cfg.max_depth < depth ∨ cfg.max_pages_per_domain ≤ c
      · rw [collectBatch, if_pos hcond]
        exact List.Sublist.cons _ (ih tl v c)
      · rw [collectBatch, if_neg hcond]
        exact List.Sublist.cons _ (ih tl (url :: v) (c + 1))

theorem collectBatch_batch_le_queue (cfg : Config) :
    ∀ (n : Nat) (q : List Task) (v : List String) (c : Nat),
      (q.map Prod.snd).Pairwise (· ≤ ·) →
      ∀ b ∈ (collectBatch cfg n q v c).1,
        ∀ t ∈ (collectBatch cfg n q v c).2.1, b.2 ≤ t.2 := by
  intro n
  induction n with
  | zero => intro q v c _ b hb; simp [collectBatch] at hb
  | succ n ih =>
    intro q v c hp b hb t ht
    match q with
    | [] => simp [collectBatch] at hb
    | (url, depth) :: tl =>
      have hp2 : (tl.map Prod.snd).Pairwise (· ≤ ·) :=
        (List.pairwise_cons.mp (by simpa using hp)).2
      have hhead : ∀ x ∈ tl, depth ≤ x.2 := by
        intro x hx
        exact (List.pairwise_cons.mp (by simpa using hp)).1 x.2
          (List.mem_map.mpr ⟨x, hx, rfl⟩)
      by_cases hcond : url ∈ v ∨ cfg.max_depth < depth ∨ cfg.max_pages_per_domain ≤ c
      · rw [collectBatch, if_pos hcond] at hb ht
        exact ih tl v c hp2 b hb t ht
      · rw [collectBatch, if_neg hcond] at hb ht
        rcases List.mem_cons.mp hb with h | h
        · subst h
          exact hhead t (collectBatch_queue_mem cfg n tl (url :: v) (c + 1) t ht)
        · exact ih tl (url :: v) (c + 1) hp2 b h t ht

theorem collectBatch_batch_pairwise (cfg : Config) :
    ∀ (n : Nat) (q : List Task) (v : List String) (c : Nat),
      (q.map Prod.snd).Pairwise (· ≤ ·) →
      (((collectBatch cfg n q v c).1.map Prod.snd)).Pairwise (· ≤ ·) := by
  intro n
  induction n with
  | zero => intro q v c _; simp [collectBatch]
  | succ n ih =>
    intro q v c hp
    match q with
    | [] => simp [collectBatch]
    | (url, depth) :: tl =>
      have hp2 : (tl.map Prod.snd).Pairwise (· ≤ ·) :=
        (List.pairwise_cons.mp (by simpa using hp)).2
      have hhead : ∀ x ∈ tl, depth ≤ x.2 := by
        intro x hx
        exact (List.pairwise_cons.mp (by simpa using hp)).1 x.2
          (List.mem_map.mpr ⟨x, hx, rfl⟩)
      by_cases hcond : url ∈ v ∨ cfg.max_depth < depth ∨ cfg.max_pages_per_domain ≤ c
      · rw [collectBatch, if_pos hcond]
        exact ih tl v c hp2
      · rw [collectBatch, if_neg hcond]
        simp only [List.map_cons]
        rw [List.pairwise_cons]
        refine ⟨?_, ih tl (url :: v) (c + 1) hp2⟩
        intro x hx
        obtain ⟨t, ht, he⟩ := List.mem_map.mp hx
        subst he
        exact hhead t (collectBatch_batch_mem cfg n tl (url :: v) (c + 1) t ht)

/-! ## Lemmas about extract_links and enqueueLinks -/

theorem extractLinksGo_mem (w : World) (base : String) :
    ∀ (hs acc : List String) (l : String),
      l ∈ extractLinksGo w base hs acc →
      l ∈ acc ∨ ∃ a, normalize_url a = .ok l := by
  intro hs
  induction hs with
  | nil => intro acc l h; rw [extractLinksGo] at h; exact Or.inl h
  | cons h0 tl ih =>
    intro acc l h
    rw [extractLinksGo] at h
    split at h
    · exact ih acc l h
    · split at h
      · exact Or.inl h
      · rename_i abs hj
        split at h
        · exact Or.inl h
        · rename_i nu hn
          rcases ih _ l h with h2 | h2
          · by_cases hm : nu ∈ acc
            · rw [if_pos hm] at h2; exact Or.inl h2
            · rw [if_neg hm] at h2
              rcases List.mem_append.mp h2 with h3 | h3
              · exact Or.inl h3
              · right
                refine ⟨abs, ?_⟩
                rw [hn]
                simp at h3
                rw [h3]
          · exact Or.inr h2

theorem extract_links_mem (w : World) (content base : String) :
    ∀ l ∈ extract_links w content base, ∃ a, normalize_url a = .ok l := by
  intro l h
  rcases extractLinksGo_mem w base (w.hrefs content) [] l h with h2 | h2
  · simp at h2
  · exact h2

theorem enqueueLinks_mem (cfg : Config) (domain : String) (v : List String)
    (c : Nat) (dep1 : Nat) :
    ∀ (links : List String) (q : List Task) (t : Task),
      t ∈ enqueueLinks cfg domain v c dep1 q links →
      t ∈ q ∨ (t.1 ∈ links ∧ t.2 = dep1 ∧ is_valid_url t.1 domain = true ∧
        t.1 ∉ v ∧ c < cfg.max_pages_per_domain) := by
  intro links
  induction links with
  | nil => intro q t h; rw [enqueueLinks] at h; exact Or.inl (by simpa using h)
  | cons l tl ih =>
    intro q t h
    rw [enqueueLinks, List.foldl_cons] at h
    by_cases hc : is_valid_url l domain ∧ l ∉ v ∧ c < cfg.max_pages_per_domain
    · rw [if_pos hc] at h
      rcases ih (q ++ [(l, dep1)]) t h with h2 | h2
      · rcases List.mem_append.mp h2 with h3 | h3
        · exact Or.inl h3
        · right
          have : t = (l, dep1) := by simpa using h3
          subst this
          exact ⟨List.mem_cons_self _ _, rfl, hc.1, hc.2.1, hc.2.2⟩
      · exact Or.inr ⟨List.mem_cons_of_mem _ h2.1, h2.2⟩
    · rw [if_neg hc] at h
      rcases ih q t h with h2 | h2
      · exact Or.inl h2
      · exact Or.inr ⟨List.mem_cons_of_mem _ h2.1, h2.2⟩

theorem enqueueLinks_order (cfg : Config) (domain : String) (v : List String)
    (c : Nat) (dep1 : Nat) :
    ∀ (links : List String) (q : List Task),
      ((q.map Prod.snd).Pairwise (· ≤ ·)) → (∀ t ∈ q, t.2 ≤ dep1) →
      (((enqueueLinks cfg domain v c dep1 q links).map Prod.snd).Pairwise (· ≤ ·)) ∧
      (∀ t ∈ enqueueLinks cfg domain v c dep1 q links, t.2 ≤ dep1) := by
  intro links
  induction links with
  | nil =>
    intro q hp hle
    rw [enqueueLinks]
    exact ⟨hp, hle⟩
  | cons l tl ih =>
    intro q hp hle
    rw [enqueueLinks, List.foldl_cons]
    by_cases hc : is_valid_url l domain ∧ l ∉ v ∧ c < cfg.max_pages_per_domain
    · rw [if_pos hc]
      have hp2 : (((q ++ [(l, dep1)]).map Prod.snd).Pairwise (· ≤ ·)) := by
        rw [List.map_append, List.pairwise_append]
        refine ⟨hp, by simp, ?_⟩
        intro a ha b hb
        simp at hb
        subst hb
        obtain ⟨t, ht, he⟩ := List.mem_map.mp ha
        exact he ▸ hle t ht
      have hle2 : ∀ t ∈ q ++ [(l, dep1)], t.2 ≤ dep1 := by
        intro t ht
        rcases List.mem_append.mp ht with h | h
        · exact hle t h
        · have : t = (l, dep1) := by simpa using h
          subst this
          exact Nat.le_refl dep1
      exact ih (q ++ [(l, dep1)]) hp2 hle2
    · rw [if_neg hc]
      exact ih q hp hle

theorem processBatch_order (cfg : Config) (w : World) (domain : String)
    (v : List String) (c : Nat) :
    ∀ (batch q : List Task) (disc : Disc),
      ((q.map Prod.snd).Pairwise (· ≤ ·)) →
      ((batch.map Prod.snd).Pairwise (· ≤ ·)) →
      (∀ t ∈ q, ∀ b ∈ batch, t.2 ≤ b.2 + 1) →
      (∀ b ∈ batch, ∀ t ∈ q, b.2 ≤ t.2) →
      (∀ a ∈ batch, ∀ b ∈ batch, a.2 ≤ b.2 + 1) →
      (((processBatch cfg w domain v c batch q disc).1.map Prod.snd).Pairwise (· ≤ ·)) := by
  intro batch
  induction batch with
  | nil => intro q disc hq _ _ _ _; rw [processBatch]; exact hq
  | cons t0 tl ih =>
    intro q disc hq hb hqb hbq hw
    obtain ⟨url, depth⟩ := t0
    have hbtl : ((tl.map Prod.snd).Pairwise (· ≤ ·)) :=
      (List.pairwise_cons.mp (by simpa using hb)).2
    have hhead : ∀ x ∈ tl, depth ≤ x.2 := by
      intro x hx
      exact (List.pairwise_cons.mp (by simpa using hb)).1 x.2
        (List.mem_map.mpr ⟨x, hx, rfl⟩)
    rw [processBatch]
    split
    · exact hq
    · rename_i u content status hf
      split
      · -- successful 200 fetch: enqueue links at depth + 1, then recurse
        have henq := enqueueLinks_order cfg domain v c (depth + 1)
          (extract_links w content u) q hq
          (fun t ht => hqb t ht (url, depth) (List.mem_cons_self _ _))
        have hqe : ∀ qe : List Task,
            ((qe.map Prod.snd).Pairwise (· ≤ ·)) → (∀ t ∈ qe, t ∈ q ∨ t.2 = depth + 1) →
            ((processBatch cfg w domain v c tl qe (discAdd disc depth u)).1.map
              Prod.snd).Pairwise (· ≤ ·) := by
          intro qe hpe hme
          refine ih qe (discAdd disc depth u) hpe hbtl ?_ ?_ ?_
          · intro t ht b hbm
            rcases hme t ht with h | h
            · exact hqb t h b (List.mem_cons_of_mem _ hbm)
            · rw [h]
              exact Nat.succ_le_succ (hhead b hbm)
          · intro b hbm t ht
            rcases hme t ht with h | h
            · exact hbq b (List.mem_cons_of_mem _ hbm) t h
            · rw [h]
              exact hw b (List.mem_cons_of_mem _ hbm) (url, depth)
                (List.mem_cons_self _ _)
          · intro a ha b hbm
            exact hw a (List.mem_cons_of_mem _ ha) b (List.mem_cons_of_mem _ hbm)
        split
        · refine hqe _ henq.1 ?_
          intro t ht
          rcases enqueueLinks_mem cfg domain v c (depth + 1)
              (extract_links w content u) q t ht with h | h
          · exact Or.inl h
          · exact Or.inr h.2.1
        · exact hqe q hq (fun t ht => Or.inl ht)
      · exact ih q disc hq hbtl
          (fun t ht b hbm => hqb t ht b (List.mem_cons_of_mem _ hbm))
          (fun b hbm t ht => hbq b (List.mem_cons_of_mem _ hbm) t ht)
          (fun a ha b hbm => hw a (List.mem_cons_of_mem _ ha) b (List.mem_cons_of_mem _ hbm))

/-! ## Lemmas about processBatch -/

theorem fetch_page_url (w : World) (url u b : String) (s : Nat) :
    fetch_page w url = .triple u b s → u = url := by
  intro hf
  unfold fetch_page at hf
  cases hw : w.fetch url with
  | response st body =>
    rw [hw] at hf
    by_cases h200 : st = 200
    · subst h200; simp at hf; exact hf.1.symm
    · simp [h200] at hf; exact hf.1.symm
  | timeout => rw [hw] at hf; simp at hf; exact hf.1.symm
  | failure r => rw [hw] at hf; simp at hf; exact hf.1.symm
  | fatal r => rw [hw] at hf; simp at hf

theorem processBatch_keys (cfg : Config) (w : World) (domain : String)
    (v : List String) (c : Nat) :
    ∀ (batch q : List Task) (disc : Disc) (k : Nat),
      k ∈ discKeys (processBatch cfg w domain v c batch q disc).2.1 →
      k ∈ discKeys disc ∨ ∃ t ∈ batch, k = t.2 := by
  intro batch
  induction batch with
  | nil => intro q disc k h; rw [processBatch] at h; exact Or.inl h
  | cons t0 tl ih =>
    intro q disc k h
    obtain ⟨url, depth⟩ := t0
    rw [processBatch] at h
    split at h
    · exact Or.inl h
    · rename_i u content status hf
      split at h
      · rcases ih _ _ k h with h2 | h2
        · rcases discAdd_keys disc depth u k h2 with h3 | h3
          · exact Or.inl h3
          · exact Or.inr ⟨(url, depth), List.mem_cons_self _ _, h3⟩
        · obtain ⟨t, ht, he⟩ := h2
          exact Or.inr ⟨t, List.mem_cons_of_mem _ ht, he⟩
      · rcases ih _ _ k h with h2 | h2
        · exact Or.inl h2
        · obtain ⟨t, ht, he⟩ := h2
          exact Or.inr ⟨t, List.mem_cons_of_mem _ ht, he⟩

theorem processBatch_total (cfg : Config) (w : World) (domain : String)
    (v : List String) (c : Nat) :
    ∀ (batch q : List Task) (disc : Disc),
      discTotal (processBatch cfg w domain v c batch q disc).2.1 ≤
        discTotal disc + batch.length := by
  intro batch
  induction batch with
  | nil => intro q disc; rw [processBatch]; simp
  | cons t0 tl ih =>
    intro q disc
    obtain ⟨url, depth⟩ := t0
    rw [processBatch]
    split
    · simp
    · rename_i u content status hf
      split
      · have h1 := ih
          (if depth < cfg.max_depth then
            enqueueLinks cfg domain v c (depth + 1) q (extract_links w content u)
          else q)
          (discAdd disc depth u)
        have h2 := discAdd_total_le disc depth u
        simp only [List.length_cons]
        omega
      · have h1 := ih q disc
        simp only [List.length_cons]
        omega

theorem processBatch_urls (cfg : Config) (w : World) (domain : String)
    (v : List String) (c : Nat) :
    ∀ (batch q : List Task) (disc : Disc) (x : String),
      x ∈ discUrls (processBatch cfg w domain v c batch q disc).2.1 →
      x ∈ discUrls disc ∨ x ∈ batch.map Prod.fst := by
  intro batch
  induction batch with
  | nil => intro q disc x h; rw [processBatch] at h; exact Or.inl h
  | cons t0 tl ih =>
    intro q disc x h
    obtain ⟨url, depth⟩ := t0
    rw [processBatch] at h
    split at h
    · exact Or.inl h
    · rename_i u content status hf
      have hu2 : u = url := fetch_page_url w url u content status hf
      subst hu2
      split at h
      · rcases ih _ _ x h with h2 | h2
        · rcases discAdd_urls disc depth u x h2 with h3 | h3
          · exact Or.inl h3
          · subst h3; exact Or.inr (by simp)
        · exact Or.inr (List.mem_cons_of_mem _ h2)
      · rcases ih _ _ x h with h2 | h2
        · exact Or.inl h2
        · exact Or.inr (List.mem_cons_of_mem _ h2)

theorem processBatch_urls_nodup (cfg : Config) (w : World) (domain : String)
    (v : List String) (c : Nat) :
    ∀ (batch q : List Task) (disc : Disc),
      (discUrls disc).Nodup →
      (batch.map Prod.fst).Nodup →
      (∀ t ∈ batch, t.1 ∉ discUrls disc) →
      (discUrls (processBatch cfg w domain v c batch q disc).2.1).Nodup := by
  intro batch
  induction batch with
  | nil =>
    intro q disc hn _ _
    rw [processBatch]
    exact hn
  | cons t0 tl ih =>
    intro q disc hn hb hf
    obtain ⟨url, depth⟩ := t0
    have hb2 : url ∉ tl.map Prod.fst ∧ (tl.map Prod.fst).Nodup := by
      rw [List.map_cons] at hb
      exact ⟨(List.nodup_cons.mp hb).1, (List.nodup_cons.mp hb).2⟩
    rw [processBatch]
    split
    · exact hn
    · rename_i u content status hfe
      have hu2 : u = url := fetch_page_url w url u content status hfe
      subst hu2
      split
      · apply ih
        · exact discAdd_urls_nodup depth u disc hn
            (hf (u, depth) (List.mem_cons_self _ _))
        · exact hb2.2
        · intro t ht hmem
          rcases discAdd_urls disc depth u t.1 hmem with h2 | h2
          · exact hf t (List.mem_cons_of_mem _ ht) h2
          · exact hb2.1 (List.mem_map.mpr ⟨t, ht, h2⟩)
      · apply ih _ _ hn hb2.2
        intro t ht
        exact hf t (List.mem_cons_of_mem _ ht)

theorem processBatch_disc_mono (cfg : Config) (w : World) (domain : String)
    (v : List String) (c : Nat) :
    ∀ (batch q : List Task) (disc : Disc) (k : Nat) (us : List String) (u : String),
      (k, us) ∈ disc → u ∈ us →
      ∃ us2, (k, us2) ∈ (processBatch cfg w domain v c batch q disc).2.1 ∧ u ∈ us2 := by
  intro batch
  induction batch with
  | nil => intro q disc k us u h hu; rw [processBatch]; exact ⟨us, h, hu⟩
  | cons t0 tl ih =>
    intro q disc k us u h hu
    obtain ⟨url, depth⟩ := t0
    rw [processBatch]
    split
    · exact ⟨us, h, hu⟩
    · rename_i u2 content status hf
      split
      · obtain ⟨us2, h2, hu2⟩ := discAdd_mem disc depth u2 k us u h hu
        exact ih _ _ k us2 u h2 hu2
      · exact ih _ _ k us u h hu

theorem processBatch_queue (cfg : Config) (w : World) (domain : String)
    (v : List String) (c : Nat) :
    ∀ (batch q : List Task) (disc : Disc) (t : Task),
      t ∈ (processBatch cfg w domain v c batch q disc).1 →
      t ∈ q ∨ ((∃ b ∈ batch, t.2 = b.2 + 1) ∧ is_valid_url t.1 domain = true ∧
        t.1 ∉ v ∧ c < cfg.max_pages_per_domain ∧
        ∃ a, normalize_url a = .ok t.1) := by
  intro batch
  induction batch with
  | nil => intro q disc t h; rw [processBatch] at h; exact Or.inl h
  | cons t0 tl ih =>
    intro q disc t h
    obtain ⟨url, depth⟩ := t0
    rw [processBatch] at h
    split at h
    · exact Or.inl h
    · rename_i u content status hf
      split at h
      · rcases ih _ _ t h with h2 | h2
        · split at h2
          · rcases enqueueLinks_mem cfg domain v c (depth + 1)
                (extract_links w content u) q t h2 with h3 | h3
            · exact Or.inl h3
            · right
              refine ⟨⟨(url, depth), List.mem_cons_self _ _, h3.2.1⟩,
                h3.2.2.1, h3.2.2.2.1, h3.2.2.2.2, ?_⟩
              exact extract_links_mem w content u t.1 h3.1
          · exact Or.inl h2
        · obtain ⟨⟨b, hb, he⟩, rest⟩ := h2
          exact Or.inr ⟨⟨b, List.mem_cons_of_mem _ hb, he⟩, rest⟩
      · rcases ih _ _ t h with h2 | h2
        · exact Or.inl h2
        · obtain ⟨⟨b, hb, he⟩, rest⟩ := h2
          exact Or.inr ⟨⟨b, List.mem_cons_of_mem _ hb, he⟩, rest⟩

/-! ## Lemmas about crawlLoop -/

theorem crawlLoop_keys (cfg : Config) (w : World) (domain : String) :
    ∀ (fuel : Nat) (q : List Task) (v : List String) (c : Nat) (disc : Disc)
      (tr : List (List Task)),
      (∀ k ∈ discKeys disc, k ≤ cfg.max_depth) →
      ∀ k ∈ discKeys (crawlLoop cfg w domain fuel q v c disc tr).disc,
        k ≤ cfg.max_depth := by
  intro fuel
  induction fuel with
  | zero => intro q v c disc tr hd k hk; rw [crawlLoop] at hk; exact hd k hk
  | succ fuel ih =>
    intro q v c disc tr hd k hk
    rw [crawlLoop] at hk
    split at hk
    · exact hd k hk
    · rename_i hne
      split at hk
      rename_i batch q1 v1 c1 hcb
      have hdisc2 : ∀ k2 ∈ discKeys (processBatch cfg w domain v1 c1 batch q1 disc).2.1,
          k2 ≤ cfg.max_depth := by
        intro k2 hk2
        rcases processBatch_keys cfg w domain v1 c1 batch q1 disc k2 hk2 with h4 | h4
        · exact hd k2 h4
        · obtain ⟨t, ht, he⟩ := h4
          have hb : t ∈ (collectBatch cfg (min cfg.max_concurrent q.length) q v c).1 := by
            rw [hcb]; exact ht
          exact he ▸ collectBatch_mem_depth cfg _ q v c t hb
      split at hk
      · exact hd k hk
      · split at hk
        · rename_i q2 disc2 e hpb
          exact hdisc2 k (by rw [hpb]; exact hk)
        · rename_i q2 disc2 hpb
          refine ih _ _ _ _ _ ?_ k hk
          intro k2 hk2
          exact hdisc2 k2 (by rw [hpb]; exact hk2)

theorem crawlLoop_trace_depth (cfg : Config) (w : World) (domain : String) :
    ∀ (fuel : Nat) (q : List Task) (v : List String) (c : Nat) (disc : Disc)
      (tr : List (List Task)),
      (∀ b ∈ tr, ∀ t ∈ b, t.2 ≤ cfg.max_depth) →
      ∀ b ∈ (crawlLoop cfg w domain fuel q v c disc tr).trace,
        ∀ t ∈ b, t.2 ≤ cfg.max_depth := by
  intro fuel
  induction fuel with
  | zero => intro q v c disc tr hd b hb; rw [crawlLoop] at hb; exact hd b hb
  | succ fuel ih =>
    intro q v c disc tr hd b hb
    rw [crawlLoop] at hb
    split at hb
    · exact hd b hb
    · split at hb
      rename_i batch q1 v1 c1 hcb
      have hbatch : ∀ b2 ∈ tr ++ [batch], ∀ t ∈ b2, t.2 ≤ cfg.max_depth := by
        intro b2 hb2 t ht
        rcases List.mem_append.mp hb2 with h | h
        · exact hd b2 h t ht
        · have hb3 : b2 = batch := by simpa using h
          subst hb3
          have : t ∈ (collectBatch cfg (min cfg.max_concurrent q.length) q v c).1 := by
            rw [hcb]; exact ht
          exact collectBatch_mem_depth cfg _ q v c t this
      split at hb
      · exact hd b hb
      · split at hb
        · exact hbatch b hb
        · exact ih _ _ _ _ _ hbatch b hb

theorem crawlLoop_budget (cfg : Config) (w : World) (domain : String) :
    ∀ (fuel : Nat) (q : List Task) (v : List String) (c : Nat) (disc : Disc)
      (tr : List (List Task)),
      discTotal disc ≤ c → c ≤ cfg.max_pages_per_domain →
      discTotal (crawlLoop cfg w domain fuel q v c disc tr).disc ≤
          (crawlLoop cfg w domain fuel q v c disc tr).count ∧
        (crawlLoop cfg w domain fuel q v c disc tr).count ≤ cfg.max_pages_per_domain := by
  intro fuel
  induction fuel with
  | zero => intro q v c disc tr h1 h2; rw [crawlLoop]; exact ⟨h1, h2⟩
  | succ fuel ih =>
    intro q v c disc tr h1 h2
    rw [crawlLoop]
    split
    · exact ⟨h1, h2⟩
    · split
      rename_i batch q1 v1 c1 hcb
      have hc1 : c1 = c + batch.length := by
        have h := collectBatch_count cfg (min cfg.max_concurrent q.length) q v c
        rw [hcb] at h
        simpa using h
      have hc1le : c1 ≤ cfg.max_pages_per_domain := by
        have h := collectBatch_count_le cfg (min cfg.max_concurrent q.length) q v c h2
        rw [hcb] at h
        simpa using h
      have hd2 : discTotal (processBatch cfg w domain v1 c1 batch q1 disc).2.1 ≤ c1 := by
        have := processBatch_total cfg w domain v1 c1 batch q1 disc
        omega
      split
      · constructor
        · show discTotal disc ≤ c1
          omega
        · show c1 ≤ cfg.max_pages_per_domain
          exact hc1le
      · split
        · rename_i q2 disc2 e hpb
          rw [hpb] at hd2
          constructor
          · show discTotal disc2 ≤ c1
            exact hd2
          · show c1 ≤ cfg.max_pages_per_domain
            exact hc1le
        · rename_i q2 disc2 hpb
          refine ih _ _ _ _ _ ?_ hc1le
          rw [hpb] at hd2
          exact hd2

theorem crawlLoop_visited_mono (cfg : Config) (w : World) (domain : String) :
    ∀ (fuel : Nat) (q : List Task) (v : List String) (c : Nat) (disc : Disc)
      (tr : List (List Task)) (x : String),
      x ∈ v → x ∈ (crawlLoop cfg w domain fuel q v c disc tr).visited := by
  intro fuel
  induction fuel with
  | zero => intro q v c disc tr x hx; rw [crawlLoop]; exact hx
  | succ fuel ih =>
    intro q v c disc tr x hx
    rw [crawlLoop]
    split
    · exact hx
    · split
      rename_i batch q1 v1 c1 hcb
      have hv1 : x ∈ v1 := by
        have := (collectBatch_visited cfg (min cfg.max_concurrent q.length) q v c x).mpr
          (Or.inr hx)
        rw [hcb] at this
        exact this
      split
      · exact hv1
      · split
        · exact hv1
        · exact ih _ _ _ _ _ x hv1

theorem crawlLoop_count_mono (cfg : Config) (w : World) (domain : String) :
    ∀ (fuel : Nat) (q : List Task) (v : List String) (c : Nat) (disc : Disc)
      (tr : List (List Task)),
      c ≤ (crawlLoop cfg w domain fuel q v c disc tr).count := by
  intro fuel
  induction fuel with
  | zero => intro q v c disc tr; rw [crawlLoop]
  | succ fuel ih =>
    intro q v c disc tr
    rw [crawlLoop]
    split
    · exact Nat.le_refl c
    · split
      rename_i batch q1 v1 c1 hcb
      have hc1 : c ≤ c1 := by
        have h := collectBatch_count cfg (min cfg.max_concurrent q.length) q v c
        rw [hcb] at h
        simp at h
        omega
      split
      · exact hc1
      · split
        · exact hc1
        · exact Nat.le_trans hc1 (ih _ _ _ _ _)

theorem crawlLoop_disc_mono (cfg : Config) (w : World) (domain : String) :
    ∀ (fuel : Nat) (q : List Task) (v : List String) (c : Nat) (disc : Disc)
      (tr : List (List Task)) (k : Nat) (us : List String) (u : String),
      (k, us) ∈ disc → u ∈ us →
      ∃ us2, (k, us2) ∈ (crawlLoop cfg w domain fuel q v c disc tr).disc ∧ u ∈ us2 := by
  intro fuel
  induction fuel with
  | zero => intro q v c disc tr k us u h hu; rw [crawlLoop]; exact ⟨us, h, hu⟩
  | succ fuel ih =>
    intro q v c disc tr k us u h hu
    rw [crawlLoop]
    split
    · exact ⟨us, h, hu⟩
    · split
      rename_i batch q1 v1 c1 hcb
      split
      · exact ⟨us, h, hu⟩
      · obtain ⟨us2, h2, hu2⟩ := processBatch_disc_mono cfg w domain v1 c1 batch q1 disc k us u h hu
        split
        · rename_i q2 disc2 e hpb
          rw [hpb] at h2
          exact ⟨us2, h2, hu2⟩
        · rename_i q2 disc2 hpb
          rw [hpb] at h2
          exact ih _ _ _ _ _ k us2 u h2 hu2

theorem crawlLoop_trace_front (cfg : Config) (w : World) (domain : String) :
    ∀ (fuel : Nat) (q : List Task) (v : List String) (c : Nat) (disc : Disc)
      (tr : List (List Task)),
      ∃ tr2, (crawlLoop cfg w domain fuel q v c disc tr).trace = tr ++ tr2 := by
  intro fuel
  induction fuel with
  | zero => intro q v c disc tr; rw [crawlLoop]; exact ⟨[], by simp⟩
  | succ fuel ih =>
    intro q v c disc tr
    rw [crawlLoop]
    split
    · exact ⟨[], by simp⟩
    · split
      rename_i batch q1 v1 c1 hcb
      split
      · exact ⟨[], by simp⟩
      · split
        · exact ⟨[batch], rfl⟩
        · obtain ⟨tr2, htr⟩ := ih _ _ _ _ (tr ++ [batch])
          exact ⟨[batch] ++ tr2, by rw [htr]; simp⟩

theorem crawlLoop_urls_visited (cfg : Config) (w : World) (domain : String) :
    ∀ (fuel : Nat) (q : List Task) (v : List String) (c : Nat) (disc : Disc)
      (tr : List (List Task)),
      (∀ u ∈ discUrls disc, u ∈ v) →
      ∀ u ∈ discUrls (crawlLoop cfg w domain fuel q v c disc tr).disc,
        u ∈ (crawlLoop cfg w domain fuel q v c disc tr).visited := by
  intro fuel
  induction fuel with
  | zero => intro q v c disc tr hd u hu; rw [crawlLoop] at hu ⊢; exact hd u hu
  | succ fuel ih =>
    intro q v c disc tr hd
    rw [crawlLoop]
    split
    · exact hd
    · split
      rename_i batch q1 v1 c1 hcb
      have hv1 : ∀ x, x ∈ v → x ∈ v1 := by
        intro x hx
        have h := (collectBatch_visited cfg (min cfg.max_concurrent q.length) q v c x).mpr
          (Or.inr hx)
        rw [hcb] at h
        exact h
      have hbv1 : ∀ x ∈ batch.map Prod.fst, x ∈ v1 := by
        intro x hx
        have h := (collectBatch_visited cfg (min cfg.max_concurrent q.length) q v c x).mpr
          (Or.inl (by rw [hcb]; exact hx))
        rw [hcb] at h
        exact h
      have hd2 : ∀ x ∈ discUrls (processBatch cfg w domain v1 c1 batch q1 disc).2.1,
          x ∈ v1 := by
        intro x hx
        rcases processBatch_urls cfg w domain v1 c1 batch q1 disc x hx with h2 | h2
        · exact hv1 x (hd x h2)
        · exact hbv1 x h2
      split
      · intro u hu
        exact hv1 u (hd u hu)
      · split
        · rename_i q2 disc2 e hpb
          intro u hu
          exact hd2 u (by rw [hpb]; exact hu)
        · rename_i q2 disc2 hpb
          exact ih _ _ _ _ _ (fun x hx => hd2 x (by rw [hpb]; exact hx))

theorem crawlLoop_dedup (cfg : Config) (w : World) (domain seed : String) :
    ∀ (fuel : Nat) (q : List Task) (v : List String) (c : Nat) (disc : Disc)
      (tr : List (List Task)),
      (∀ t ∈ q, t.1 = seed ∨ normalize_url t.1 = .ok t.1) →
      (∀ x ∈ discUrls disc, x = seed ∨ normalize_url x = .ok x) →
      (discUrls disc).Nodup →
      (∀ x ∈ discUrls disc, x ∈ v) →
      (discUrls (crawlLoop cfg w domain fuel q v c disc tr).disc).Nodup ∧
      ∀ x ∈ discUrls (crawlLoop cfg w domain fuel q v c disc tr).disc,
        x = seed ∨ normalize_url x = .ok x := by
  intro fuel
  induction fuel with
  | zero =>
    intro q v c disc tr hq hd hn hv
    rw [crawlLoop]
    exact ⟨hn, hd⟩
  | succ fuel ih =>
    intro q v c disc tr hq hd hn hv
    rw [crawlLoop]
    split
    · exact ⟨hn, hd⟩
    · split
      rename_i batch q1 v1 c1 hcb
      have hbf := collectBatch_batch_fresh cfg (min cfg.max_concurrent q.length) q v c
      rw [hcb] at hbf
      have hbmem : ∀ t ∈ batch, t ∈ q := by
        intro t ht
        have h2 := collectBatch_batch_mem cfg (min cfg.max_concurrent q.length) q v c t
        rw [hcb] at h2
        exact h2 ht
      have hbd : ∀ t ∈ batch, t.1 ∉ discUrls disc := by
        intro t ht hmem
        exact hbf.2 t ht (hv _ hmem)
      have hnd2 : (discUrls (processBatch cfg w domain v1 c1 batch q1 disc).2.1).Nodup :=
        processBatch_urls_nodup cfg w domain v1 c1 batch q1 disc hn hbf.1 hbd
      have hdd2 : ∀ x ∈ discUrls (processBatch cfg w domain v1 c1 batch q1 disc).2.1,
          x = seed ∨ normalize_url x = .ok x := by
        intro x hx
        rcases processBatch_urls cfg w domain v1 c1 batch q1 disc x hx with h2 | h2
        · exact hd x h2
        · obtain ⟨t, ht, he⟩ := List.mem_map.mp h2
          rcases hq t (hbmem t ht) with h3 | h3
          · exact Or.inl (he ▸ h3)
          · exact Or.inr (by rw [← he]; exact h3)
      have hvv1 : ∀ x, x ∈ v → x ∈ v1 := by
        intro x hx
        have h2 := (collectBatch_visited cfg (min cfg.max_concurrent q.length) q v c x).mpr
          (Or.inr hx)
        rw [hcb] at h2
        exact h2
      have hbv1 : ∀ x ∈ batch.map Prod.fst, x ∈ v1 := by
        intro x hx
        have h2 := (collectBatch_visited cfg (min cfg.max_concurrent q.length) q v c x).mpr
          (Or.inl (by rw [hcb]; exact hx))
        rw [hcb] at h2
        exact h2
      have hdv1 : ∀ x ∈ discUrls (processBatch cfg w domain v1 c1 batch q1 disc).2.1,
          x ∈ v1 := by
        intro x hx
        rcases processBatch_urls cfg w domain v1 c1 batch q1 disc x hx with h2 | h2
        · exact hvv1 x (hv x h2)
        · exact hbv1 x h2
      split
      · exact ⟨hn, hd⟩
      · split
        · rename_i q2 disc2 e hpb
          rw [hpb] at hnd2 hdd2
          exact ⟨hnd2, hdd2⟩
        · rename_i q2 disc2 hpb
          have hq2 : ∀ t ∈ q2, t.1 = seed ∨ normalize_url t.1 = .ok t.1 := by
            intro t ht
            have h2 := processBatch_queue cfg w domain v1 c1 batch q1 disc t
              (by rw [hpb]; exact ht)
            rcases h2 with h3 | ⟨_, hval, _, _, a, hna⟩
            · have h4 := collectBatch_queue_mem cfg (min cfg.max_concurrent q.length) q v c t
              rw [hcb] at h4
              exact hq t (h4 h3)
            · exact Or.inr (normalize_fix_of_valid a t.1 domain hna hval)
          rw [hpb] at hnd2 hdd2 hdv1
          exact ih _ _ _ _ _ hq2 hdd2 hnd2 hdv1

theorem crawlLoop_step (cfg : Config) (w : World) (domain : String) (fuel : Nat)
    (q : List Task) (v : List String) (c : Nat) (disc : Disc) (tr : List (List Task))
    (batch q1 : List Task) (v1 : List String) (c1 : Nat) (q2 : List Task) (disc2 : Disc)
    (hne : ¬(q = [] ∨ cfg.max_pages_per_domain ≤ c))
    (hcb : collectBatch cfg (min cfg.max_concurrent q.length) q v c = (batch, q1, v1, c1))
    (hbne : batch ≠ [])
    (hpb : processBatch cfg w domain v1 c1 batch q1 disc = (q2, disc2, none)) :
    crawlLoop cfg w domain (fuel + 1) q v c disc tr =
      crawlLoop cfg w domain fuel q2 v1 c1 disc2 (tr ++ [batch]) := by
  rw [crawlLoop, if_neg hne]
  split
  rename_i batch2 q1b v1b c1b hcb2
  rw [hcb] at hcb2
  simp only [Prod.mk.injEq] at hcb2
  obtain ⟨e1, e2, e3, e4⟩ := hcb2
  subst e1; subst e2; subst e3; subst e4
  rw [if_neg hbne]
  split
  · rename_i q2b disc2b e hpb2
    rw [hpb] at hpb2
    simp only [Prod.mk.injEq] at hpb2
    exact absurd hpb2.2.2 (by simp)
  · rename_i q2b disc2b hpb2
    rw [hpb] at hpb2
    simp only [Prod.mk.injEq] at hpb2
    obtain ⟨e1, e2, _⟩ := hpb2
    subst e1; subst e2
    rfl

/-! ## The orchestration: groupByDomain, gatherCrawls, collectResults -/

theorem groupByDomain_cons_err (url : String) (rest : List String)
    (acc : List (String × String)) (e : String)
    (hg : get_domain url = .error e) :
    groupByDomain (url :: rest) acc = .error e := by
  unfold groupByDomain
  rw [hg]

theorem groupByDomain_cons_ok (url : String) (rest : List String)
    (acc : List (String × String)) (d : String)
    (hg : get_domain url = .ok d) :
    groupByDomain (url :: rest) acc =
      groupByDomain rest
        (if (alookup acc d).isSome then acc else acc ++ [(d, url)]) := by
  rw [groupByDomain, hg]

theorem groupByDomain_ok_iff :
    ∀ (urls : List String) (acc : List (String × String)),
      (∃ gps, groupByDomain urls acc = .ok gps) ↔
      ∀ u ∈ urls, ∃ d, get_domain u = .ok d := by
  intro urls
  induction urls with
  | nil =>
    intro acc
    constructor
    · intro _ u hu
      simp at hu
    · intro _
      exact ⟨acc, rfl⟩
  | cons url rest ih =>
    intro acc
    match hg : get_domain url with
    | .error e =>
      rw [groupByDomain_cons_err url rest acc e hg]
      constructor
      · rintro ⟨gps, hgps⟩
        exact absurd hgps (by simp)
      · intro hall
        obtain ⟨d, hd⟩ := hall url (List.mem_cons_self _ _)
        rw [hd] at hg
        exact absurd hg (by simp)
    | .ok d =>
      rw [groupByDomain_cons_ok url rest acc d hg]
      rw [ih _]
      constructor
      · intro hall u hu
        rcases List.mem_cons.mp hu with he | he
        · subst he
          exact ⟨d, hg⟩
        · exact hall u he
      · intro hall u hu
        exact hall u (List.mem_cons_of_mem _ hu)

theorem crawl_multiple_eq_ok (cfg : Config) (w : World) (st : CrawlerState)
    (urls : List String) (gps : List (String × String))
    (hg : groupByDomain urls [] = .ok gps) :
    crawl_multiple_domains cfg w st urls =
      .ok (collectResults (gatherCrawls cfg w st gps)) := by
  unfold crawl_multiple_domains
  rw [hg]

theorem crawl_multiple_eq_err (cfg : Config) (w : World) (st : CrawlerState)
    (urls : List String) (e : String)
    (hg : groupByDomain urls [] = .error e) :
    crawl_multiple_domains cfg w st urls = .error e := by
  unfold crawl_multiple_domains
  rw [hg]

theorem collectResults_filterMap :
    ∀ rs : List (String × Except String Disc),
      collectResults rs = rs.filterMap fun pr =>
        match pr.2 with
        | .ok r => some (pr.1, r)
        | .error _ => none := by
  intro rs
  induction rs with
  | nil => rfl
  | cons pr rest ih =>
    obtain ⟨d, res⟩ := pr
    cases res with
    | ok r =>
      show (d, r) :: collectResults rest = _
      rw [List.filterMap_cons, ih]
    | error e =>
      show collectResults rest = _
      rw [List.filterMap_cons, ih]

theorem gatherCrawls_domains (cfg : Config) (w : World) :
    ∀ (gps : List (String × String)) (st : CrawlerState),
      (gatherCrawls cfg w st gps).map Prod.fst = gps.map Prod.fst := by
  intro gps
  induction gps with
  | nil => intro st; rfl
  | cons p rest ih =>
    intro st
    obtain ⟨d, seed⟩ := p
    show d :: (gatherCrawls cfg w (crawl_domain cfg w st seed).1 rest).map Prod.fst =
      d :: rest.map Prod.fst
    rw [ih]

/-! ## Pointwise unfolding equations -/

theorem alookup_aset_self {α : Type} (m : List (String × α)) (k : String) (a : α) :
    alookup (aset m k a) k = some a := by
  induction m with
  | nil => simp [aset, alookup]
  | cons hd tl ih =>
    obtain ⟨k0, a0⟩ := hd
    by_cases h : k0 = k
    · subst h; simp [aset, alookup]
    · simp [aset, h, alookup, ih]

theorem alookup_aset_other {α : Type} (m : List (String × α)) (k k2 : String) (a : α)
    (h : k ≠ k2) : alookup (aset m k a) k2 = alookup m k2 := by
  induction m with
  | nil => simp [aset, alookup, h]
  | cons hd tl ih =>
    obtain ⟨k0, a0⟩ := hd
    by_cases h0 : k0 = k
    · subst h0; simp [aset, alookup, h]
    · simp [aset, h0, alookup, ih]

theorem collectBatch_admit (cfg : Config) (n : Nat) (url : String) (depth : Nat)
    (q : List Task) (v : List String) (c : Nat)
    (h : ¬(url ∈ v ∨ cfg.max_depth < depth ∨ cfg.max_pages_per_domain ≤ c)) :
    collectBatch cfg (n + 1) ((url, depth) :: q) v c =
      ((url, depth) :: (collectBatch cfg n q (url :: v) (c + 1)).1,
       (collectBatch cfg n q (url :: v) (c + 1)).2.1,
       (collectBatch cfg n q (url :: v) (c + 1)).2.2.1,
       (collectBatch cfg n q (url :: v) (c + 1)).2.2.2) := by
  rw [collectBatch, if_neg h]

theorem processBatch_cons_ok (cfg : Config) (w : World) (domain : String)
    (v : List String) (c : Nat) (url : String) (depth : Nat) (rest q : List Task)
    (disc : Disc) (u content : String) (status : Nat)
    (hf : fetch_page w url = .triple u content status)
    (hok : status = 200 ∧ content ≠ "") :
    processBatch cfg w domain v c ((url, depth) :: rest) q disc =
      processBatch cfg w domain v c rest
        (if depth < cfg.max_depth then
          enqueueLinks cfg domain v c (depth + 1) q (extract_links w content u)
        else q)
        (discAdd disc depth u) := by
  rw [processBatch]
  split
  · rename_i r heq
    rw [hf] at heq
    exact absurd heq (by simp)
  · rename_i u2 content2 status2 heq
    rw [hf] at heq
    injection heq with e1 e2 e3
    subst e1; subst e2; subst e3
    rw [if_pos hok]

theorem crawlLoop_order (cfg : Config) (w : World) (domain : String) :
    ∀ (fuel : Nat) (q : List Task) (v : List String) (c : Nat) (disc : Disc)
      (tr : List (List Task)),
      ((tr.flatten.map Prod.snd).Pairwise (· ≤ ·)) →
      (∀ f ∈ tr.flatten, ∀ t ∈ q, f.2 ≤ t.2) →
      ((q.map Prod.snd).Pairwise (· ≤ ·)) →
      (∀ a ∈ q, ∀ b ∈ q, a.2 ≤ b.2 + 1) →
      (((crawlLoop cfg w domain fuel q v c disc tr).trace.flatten.map
        Prod.snd).Pairwise (· ≤ ·)) := by
  intro fuel
  induction fuel with
  | zero => intro q v c disc tr hA hB hC hD; rw [crawlLoop]; exact hA
  | succ fuel ih =>
    intro q v c disc tr hA hB hC hD
    rw [crawlLoop]
    split
    · exact hA
    · split
      rename_i batch q1 v1 c1 hcb
      have hbmem : ∀ t ∈ batch, t ∈ q := by
        intro t ht
        exact collectBatch_batch_mem cfg _ q v c t (by rw [hcb]; exact ht)
      have hq1mem : ∀ t ∈ q1, t ∈ q := by
        intro t ht
        exact collectBatch_queue_mem cfg _ q v c t (by rw [hcb]; exact ht)
      have hbpair : ((batch.map Prod.snd).Pairwise (· ≤ ·)) := by
        have h := collectBatch_batch_pairwise cfg (min cfg.max_concurrent q.length) q v c hC
        rw [hcb] at h
        exact h
      have hq1pair : ((q1.map Prod.snd).Pairwise (· ≤ ·)) := by
        have h := collectBatch_queue_sublist cfg (min cfg.max_concurrent q.length) q v c
        rw [hcb] at h
        exact hC.sublist (h.map Prod.snd)
      have hblq : ∀ b ∈ batch, ∀ t ∈ q1, b.2 ≤ t.2 := by
        intro b hb t ht
        exact collectBatch_batch_le_queue cfg _ q v c hC b (by rw [hcb]; exact hb) t
          (by rw [hcb]; exact ht)
      have hA2 : (((tr ++ [batch]).flatten.map Prod.snd).Pairwise (· ≤ ·)) := by
        simp only [List.flatten_append, List.flatten_cons, List.flatten_nil,
          List.append_nil]
        rw [List.map_append, List.pairwise_append]
        refine ⟨hA, hbpair, ?_⟩
        intro a ha b hb
        obtain ⟨f, hf, hfe⟩ := List.mem_map.mp ha
        obtain ⟨t, ht, hte⟩ := List.mem_map.mp hb
        subst hfe; subst hte
        exact hB f hf t (hbmem t ht)
      have hB2 : ∀ f ∈ (tr ++ [batch]).flatten, ∀ t : Task,
          (t ∈ q1 ∨ (∃ b ∈ batch, t.2 = b.2 + 1)) → f.2 ≤ t.2 := by
        intro f hf t ht
        simp only [List.flatten_append, List.flatten_cons, List.flatten_nil,
          List.append_nil] at hf
        rcases List.mem_append.mp hf with h | h
        · rcases ht with h2 | ⟨b, hb, he⟩
          · exact hB f h t (hq1mem t h2)
          · rw [he]
            exact Nat.le_succ_of_le (hB f h b (hbmem b hb))
        · rcases ht with h2 | ⟨b, hb, he⟩
          · exact hblq f h t h2
          · rw [he]
            exact hD f (hbmem f h) b (hbmem b hb)
      split
      · exact hA
      · split
        · exact hA2
        · rename_i q2 disc2 hpb
          have hq2mem : ∀ t ∈ q2, t ∈ q1 ∨ ∃ b ∈ batch, t.2 = b.2 + 1 := by
            intro t ht
            have h := processBatch_queue cfg w domain v1 c1 batch q1 disc t
              (by rw [hpb]; exact ht)
            rcases h with h | h
            · exact Or.inl h
            · exact Or.inr h.1
          have hC2 : ((q2.map Prod.snd).Pairwise (· ≤ ·)) := by
            have h := processBatch_order cfg w domain v1 c1 batch q1 disc hq1pair hbpair
              (fun t ht b hb => hD t (hq1mem t ht) b (hbmem b hb))
              hblq
              (fun a ha b hb => hD a (hbmem a ha) b (hbmem b hb))
            rw [hpb] at h
            exact h
          have hD2 : ∀ a ∈ q2, ∀ b ∈ q2, a.2 ≤ b.2 + 1 := by
            intro a ha b hb
            rcases hq2mem a ha with h1 | ⟨ba, hba, hea⟩ <;>
              rcases hq2mem b hb with h2 | ⟨bb, hbb, heb⟩
            · exact hD a (hq1mem a h1) b (hq1mem b h2)
            · rw [heb]
              exact Nat.le_succ_of_le (hD a (hq1mem a h1) bb (hbmem bb hbb))
            · rw [hea]
              exact Nat.succ_le_succ (hblq ba hba b h2)
            · rw [hea, heb]
              exact Nat.succ_le_succ (hD ba (hbmem ba hba) bb (hbmem bb hbb))
          exact ih q2 v1 c1 disc2 (tr ++ [batch]) hA2
            (fun f hf t ht => hB2 f hf t (hq2mem t ht)) hC2 hD2

/-! ## Resolving crawlDomainFull -/

theorem crawlDomainFull_resolve (cfg : Config) (w : World) (st : CrawlerState)
    (seed domain : String) (hg : get_domain seed = .ok domain) :
    crawlDomainFull cfg w st seed = crawlAssemble st domain
      (crawlLoop cfg w domain (cfg.max_pages_per_domain + 1)
        (lookupQueue st domain ++ [(seed, 0)])
        st.visited_urls (lookupCount st domain) [] []) := by
  unfold crawlDomainFull
  rw [hg]

theorem crawlDomainFull_error (cfg : Config) (w : World) (st : CrawlerState)
    (seed e : String) (hg : get_domain seed = .error e) :
    crawlDomainFull cfg w st seed = (st, [], .error e) := by
  unfold crawlDomainFull
  rw [hg]

theorem crawlAssemble_ok (st : CrawlerState) (domain : String) (out : LoopOut)
    (disc : Disc) :
    (crawlAssemble st domain out).2.2 = .ok disc ↔
      out.err = none ∧ out.disc = disc := by
  unfold crawlAssemble
  cases he : out.err with
  | none => simp
  | some e => simp

theorem crawlAssemble_trace (st : CrawlerState) (domain : String) (out : LoopOut) :
    (crawlAssemble st domain out).2.1 = out.trace := rfl

theorem crawlAssemble_visited (st : CrawlerState) (domain : String) (out : LoopOut) :
    (crawlAssemble st domain out).1.visited_urls = out.visited := rfl

/-! ## C1: depth bound -/

/-- C1: for every configuration, state and seed, the mapping crawl_domain
returns has no depth key above max_depth, and no task of depth above
max_depth is ever part of a fetched batch (such tasks are skipped at
dequeue time, and links are only enqueued at depth + 1 below max_depth). -/
theorem depth_bound (cfg : Config) (w : World) (st : CrawlerState) (seed : String) :
    (∀ disc, (crawl_domain cfg w st seed).2 = .ok disc →
      ∀ dep ∈ discKeys disc, dep ≤ cfg.max_depth) ∧
    (∀ b ∈ crawlTrace cfg w st seed, ∀ t ∈ b, t.2 ≤ cfg.max_depth) := by
  have hcd : (crawl_domain cfg w st seed).2 = (crawlDomainFull cfg w st seed).2.2 := rfl
  have hct : crawlTrace cfg w st seed = (crawlDomainFull cfg w st seed).2.1 := rfl
  cases hg : get_domain seed with
  | error e =>
    rw [crawlDomainFull_error cfg w st seed e hg] at hcd hct
    constructor
    · intro disc h
      rw [hcd] at h
      exact absurd h (by simp)
    · intro b hb
      rw [hct] at hb
      simp at hb
  | ok domain =>
    rw [crawlDomainFull_resolve cfg w st seed domain hg] at hcd hct
    constructor
    · intro disc h dep hdep
      rw [hcd, crawlAssemble_ok] at h
      have hk := crawlLoop_keys cfg w domain (cfg.max_pages_per_domain + 1)
        (lookupQueue st domain ++ [(seed, 0)]) st.visited_urls (lookupCount st domain)
        [] [] (by simp [discKeys])
      rw [h.2] at hk
      exact hk dep hdep
    · intro b hb t ht
      rw [hct, crawlAssemble_trace] at hb
      exact crawlLoop_trace_depth cfg w domain _ _ _ _ _ _ (by simp) b hb t ht

/-- C1, witness: the depth-bound theorem applied to the concrete seed-only
crawl, whose result is the single bucket at depth 0. -/
theorem depth_bound_witness :
    ∀ dep ∈ discKeys [(0, ["http://a.test/file.pdf?x=1#f"])], dep ≤ 2 :=
  (depth_bound cfgDefault wSeed initState "http://a.test/file.pdf?x=1#f").1
    [(0, ["http://a.test/file.pdf?x=1#f"])] rfl

/-! ## C2: page budget -/

/-- C2: starting from a fresh crawler, the total number of URLs over all
depth buckets of the returned mapping is at most max_pages_per_domain, and
every recorded URL was admitted (is in the final visited set).  A task is
admitted only while the page count is strictly below the budget, and each
admission increments the count. -/
theorem page_budget (cfg : Config) (w : World) (seed : String)
    (st2 : CrawlerState) (disc : Disc) :
    crawl_domain cfg w initState seed = (st2, .ok disc) →
    discTotal disc ≤ cfg.max_pages_per_domain ∧
    ∀ u ∈ discUrls disc, u ∈ st2.visited_urls := by
  intro h
  have hcd : (crawlDomainFull cfg w initState seed).2.2 = .ok disc :=
    congrArg Prod.snd h
  have hcs : (crawlDomainFull cfg w initState seed).1 = st2 :=
    congrArg Prod.fst h
  cases hg : get_domain seed with
  | error e =>
    rw [crawlDomainFull_error cfg w initState seed e hg] at hcd
    exact absurd hcd (by simp)
  | ok domain =>
    rw [crawlDomainFull_resolve cfg w initState seed domain hg] at hcd hcs
    rw [crawlAssemble_ok] at hcd
    have hbudget := crawlLoop_budget cfg w domain (cfg.max_pages_per_domain + 1)
      (lookupQueue initState domain ++ [(seed, 0)]) initState.visited_urls
      (lookupCount initState domain) [] [] (by simp [discTotal]) (by simp [lookupCount, initState, alookup])
    constructor
    · rw [← hcd.2]
      exact Nat.le_trans hbudget.1 hbudget.2
    · intro u hu
      rw [← hcs, crawlAssemble_visited]
      refine crawlLoop_urls_visited cfg w domain _ _ _ _ _ _ (by simp [discUrls]) u ?_
      rw [hcd.2]
      exact hu

/-- C2, witness: the page-budget theorem applied to the concrete seed-only
crawl. -/
theorem page_budget_witness :
    discTotal [(0, ["http://a.test/file.pdf?x=1#f"])] ≤ 8 ∧
    ∀ u ∈ discUrls [(0, ["http://a.test/file.pdf?x=1#f"])],
      u ∈ (CrawlerState.mk ["http://a.test/file.pdf?x=1#f"] [("a.test", 1)]
        [("a.test", [])]).visited_urls :=
  page_budget cfgDefault wSeed "http://a.test/file.pdf?x=1#f"
    (CrawlerState.mk ["http://a.test/file.pdf?x=1#f"] [("a.test", 1)] [("a.test", [])])
    [(0, ["http://a.test/file.pdf?x=1#f"])] rfl

/-! ## C10: the seed bypasses normalization and the scope filter -/

/-- C10: crawl_domain enqueues and admits the seed verbatim at depth 0.  No
hypothesis about normalize_url or is_valid_url is needed: whatever string
the seed is (query string or fragment, blocked extension, any scheme), as
long as its domain can be extracted it is the sole content of the first
fetch batch, is marked visited and counted against the page budget, and,
when its fetch returns HTTP 200 with a non-empty body, is recorded verbatim
under depth 0 in the result. -/
theorem seed_bypass (cfg : Config) (w : World) (seed domain body : String)
    (hmc : 1 ≤ cfg.max_concurrent) (hmp : 1 ≤ cfg.max_pages_per_domain)
    (hg : get_domain seed = .ok domain)
    (hfetch : w.fetch seed = .response 200 body) (hbody : body ≠ "") :
    (crawlTrace cfg w initState seed).head? = some [(seed, 0)] ∧
    seed ∈ (crawl_domain cfg w initState seed).1.visited_urls ∧
    1 ≤ lookupCount (crawl_domain cfg w initState seed).1 domain ∧
    ∀ disc, (crawl_domain cfg w initState seed).2 = .ok disc →
      ∃ us, (0, us) ∈ disc ∧ seed ∈ us := by
  have hfp : fetch_page w seed = .triple seed body 200 := by
    simp [fetch_page, hfetch]
  have hcond0 : ¬((seed : String) ∈ ([] : List String) ∨ cfg.max_depth < 0 ∨
      cfg.max_pages_per_domain ≤ 0) := by
    simp
    omega
  have hmin : min cfg.max_concurrent ([(seed, 0)] : List Task).length = 1 := by
    simpa using Nat.min_eq_right hmc
  have hcb2 : collectBatch cfg (min cfg.max_concurrent ([(seed, 0)] : List Task).length)
      [(seed, 0)] [] 0 = ([(seed, 0)], [], [seed], 1) := by
    rw [hmin]
    exact collectBatch_admit cfg 0 seed 0 [] [] 0 hcond0
  have hpb : processBatch cfg w domain [seed] 1 [(seed, 0)] [] [] =
      ((if 0 < cfg.max_depth then
          enqueueLinks cfg domain [seed] 1 1 [] (extract_links w body seed)
        else []), [(0, [seed])], none) := by
    rw [processBatch_cons_ok cfg w domain [seed] 1 seed 0 [] [] [] seed body 200 hfp
      ⟨rfl, hbody⟩]
    rw [processBatch]
    rfl
  have hne : ¬(([(seed, 0)] : List Task) = [] ∨ cfg.max_pages_per_domain ≤ 0) := by
    simp
    omega
  set q2 : List Task := (if 0 < cfg.max_depth then
      enqueueLinks cfg domain [seed] 1 1 [] (extract_links w body seed)
    else []) with hq2def
  have hstep := crawlLoop_step cfg w domain cfg.max_pages_per_domain [(seed, 0)] [] 0
    [] [] [(seed, 0)] [] [seed] 1 q2 [(0, [seed])] hne hcb2 (by simp) hpb
  have hfull : crawlDomainFull cfg w initState seed =
      crawlAssemble initState domain
        (crawlLoop cfg w domain cfg.max_pages_per_domain q2 [seed] 1 [(0, [seed])]
          [[(seed, 0)]]) := by
    rw [crawlDomainFull_resolve cfg w initState seed domain hg]
    exact congrArg (crawlAssemble initState domain) hstep
  have hvis : (crawl_domain cfg w initState seed).1.visited_urls =
      (crawlLoop cfg w domain cfg.max_pages_per_domain q2 [seed] 1 [(0, [seed])]
        [[(seed, 0)]]).visited := by
    show (crawlDomainFull cfg w initState seed).1.visited_urls = _
    rw [hfull]
    rfl
  refine ⟨?_, ?_, ?_, ?_⟩
  · show (crawlDomainFull cfg w initState seed).2.1.head? = some [(seed, 0)]
    rw [hfull, crawlAssemble_trace]
    obtain ⟨tr2, htr⟩ := crawlLoop_trace_front cfg w domain cfg.max_pages_per_domain
      q2 [seed] 1 [(0, [seed])] [[(seed, 0)]]
    rw [htr]
    rfl
  · rw [hvis]
    exact crawlLoop_visited_mono cfg w domain _ _ _ _ _ _ seed (by simp)
  · show 1 ≤ lookupCount (crawlDomainFull cfg w initState seed).1 domain
    rw [hfull]
    show 1 ≤ (alookup (aset initState.domain_page_count domain
      (crawlLoop cfg w domain cfg.max_pages_per_domain q2 [seed] 1 [(0, [seed])]
        [[(seed, 0)]]).count) domain).getD 0
    rw [alookup_aset_self]
    exact crawlLoop_count_mono cfg w domain _ _ _ _ _ _
  · intro disc h
    have h2 : (crawlDomainFull cfg w initState seed).2.2 = .ok disc := h
    rw [hfull, crawlAssemble_ok] at h2
    obtain ⟨us2, hmem, hseed⟩ := crawlLoop_disc_mono cfg w domain
      cfg.max_pages_per_domain q2 [seed] 1 [(0, [seed])] [[(seed, 0)]] 0 [seed] seed
      (by simp) (by simp)
    rw [h2.2] at hmem
    exact ⟨us2, hmem, hseed⟩

/-- C10, witness: the theorem applied to a seed that carries a query string,
a fragment and a blocked extension, in the world where only that seed
answers. -/
theorem seed_bypass_witness :
    (crawlTrace cfgDefault wSeed initState "http://a.test/file.pdf?x=1#f").head? =
      some [("http://a.test/file.pdf?x=1#f", 0)] ∧
    ∃ us, (0, us) ∈ [(0, ["http://a.test/file.pdf?x=1#f"])] ∧
      "http://a.test/file.pdf?x=1#f" ∈ us := by
  have h := seed_bypass cfgDefault wSeed "http://a.test/file.pdf?x=1#f" "a.test" "hello"
    (by decide) (by decide) rfl rfl (by decide)
  exact ⟨h.1, h.2.2.2 [(0, ["http://a.test/file.pdf?x=1#f"])] rfl⟩

/-! ## C7: fetch outcome classification -/

/-- C7, counterexample.  The claim says a timeout yields a timeout-classified
status distinguishable from an HTTP response outcome and that a transport
failure carries its reason.  In the code a timeout is encoded as the plain
HTTP status 408 and any failure as 500, so a timeout is indistinguishable
from a genuine 408 response and two failures with different reasons produce
identical outcomes. -/
theorem fetch_timeout_indistinguishable :
    fetch_page wQuiet "http://a.test/" = fetch_page wResp408 "http://a.test/" ∧
    fetch_page wQuiet "http://a.test/" = .triple "http://a.test/" "" 408 ∧
    fetch_page wFailA "http://a.test/" = fetch_page wFailB "http://a.test/" ∧
    wFailA.fetch "http://a.test/" ≠ wFailB.fetch "http://a.test/" := by
  refine ⟨rfl, rfl, rfl, ?_⟩
  intro h
  simp [wFailA, wFailB] at h

/-- C7, amended.  fetch_page classifies every outcome without letting a fetch
failure escape as an exception: a 200 response keeps its body, any other
response status yields that status with an empty body, a timeout yields
status 408 with an empty body, a transport failure yields status 500 with an
empty body (the reason is not carried), only a 200 response can carry a
non-empty body, and whenever the network does not produce a
BaseException-style fault the result is a plain triple. -/
theorem fetch_page_classification (w : World) (url : String) :
    (∀ body, w.fetch url = .response 200 body → fetch_page w url = .triple url body 200) ∧
    (∀ s body, w.fetch url = .response s body → s ≠ 200 →
      fetch_page w url = .triple url "" s) ∧
    (w.fetch url = .timeout → fetch_page w url = .triple url "" 408) ∧
    (∀ r, w.fetch url = .failure r → fetch_page w url = .triple url "" 500) ∧
    (∀ b st, fetch_page w url = .triple url b st → b ≠ "" →
      st = 200 ∧ w.fetch url = .response 200 b) ∧
    ((∀ r, w.fetch url ≠ .fatal r) → ∃ b st, fetch_page w url = .triple url b st) := by
  refine ⟨?_, ?_, ?_, ?_, ?_, ?_⟩
  · intro body h; simp [fetch_page, h]
  · intro s body h hs; simp [fetch_page, h, hs]
  · intro h; simp [fetch_page, h]
  · intro r h; simp [fetch_page, h]
  · intro b st h hb
    unfold fetch_page at h
    cases hf : w.fetch url with
    | response s body =>
      rw [hf] at h
      by_cases h200 : s = 200
      · subst h200
        simp at h
        exact ⟨h.2.symm, by rw [h.1]⟩
      · simp [h200] at h
        exact absurd h.1.symm hb
    | timeout => rw [hf] at h; simp at h; exact absurd h.1.symm hb
    | failure r => rw [hf] at h; simp at h; exact absurd h.1.symm hb
    | fatal r => rw [hf] at h; simp at h
  · intro h
    unfold fetch_page
    cases hf : w.fetch url with
    | response s body =>
      by_cases h200 : s = 200
      · subst h200; exact ⟨body, 200, by simp⟩
      · exact ⟨"", s, by simp [h200]⟩
    | timeout => exact ⟨"", 408, rfl⟩
    | failure r => exact ⟨"", 500, rfl⟩
    | fatal r => exact absurd hf (h r)

/-- C7, witness: the classification theorem applied in the all-timeout
world. -/
theorem fetch_page_classification_witness :
    fetch_page wQuiet "http://a.test/" = .triple "http://a.test/" "" 408 :=
  (fetch_page_classification wQuiet "http://a.test/").2.2.1 rfl

/-! ## C8: normalizer totality on malformed input -/

/-- C8: the spec requires the URL helpers never to raise on malformed input,
but normalize_url and get_domain call urlparse unprotected, and urlparse
raises ValueError (Invalid IPv6 URL) on a netloc with an unbalanced square
bracket; only is_valid_url catches the error and classifies the input as
out of scope. -/
theorem normalizer_raises_on_malformed :
    normalize_url "http://[::1" = .error "Invalid IPv6 URL" ∧
    get_domain "http://[::1" = .error "Invalid IPv6 URL" ∧
    is_valid_url "http://[::1" "a.test" = false := by
  exact ⟨rfl, rfl, rfl⟩

/-! ## C3, C4, C5, C6: counterexamples -/

/-- C3, counterexample.  With max_concurrent = 2 the seed page yields three
depth-1 tasks; after the first depth-1 batch of two, the queue holds the
third depth-1 task followed by a freshly discovered depth-2 task, and the
next fetch batch contains both: a single batch mixes two depths, so a
depth-2 fetch starts before the link discovery of a depth-1 task in the same
batch has happened. -/
theorem mixed_depth_batch :
    crawlTrace ⟨2, 3, 8⟩ wMix initState "http://a.test/" =
      [[("http://a.test/", 0)],
       [("http://a.test/x", 1), ("http://a.test/y", 1)],
       [("http://a.test/z", 1), ("http://a.test/w", 2)]] := by
  rfl

/-- C3, amended: within one domain crawl, the sequence of fetched tasks, in
fetch order, has nondecreasing depths (the FIFO queue keeps depths sorted,
and links are enqueued one level deeper than their source), but a single
fetch batch may contain tasks of two different depths when fewer than
max_concurrent tasks of the shallower depth remain, so a deeper fetch can
start before the link discovery of a shallower same-batch task. -/
theorem fetch_order_nondecreasing (cfg : Config) (w : World) (seed : String) :
    (((crawlTrace cfg w initState seed).flatten.map Prod.snd).Pairwise (· ≤ ·)) := by
  cases hg : get_domain seed with
  | error e =>
    show ((crawlDomainFull cfg w initState seed).2.1.flatten.map Prod.snd).Pairwise _
    rw [crawlDomainFull_error cfg w initState seed e hg]
    simp
  | ok domain =>
    show ((crawlDomainFull cfg w initState seed).2.1.flatten.map Prod.snd).Pairwise _
    rw [crawlDomainFull_resolve cfg w initState seed domain hg, crawlAssemble_trace]
    refine crawlLoop_order cfg w domain _ _ _ _ _ _ (by simp) (by simp) ?_ ?_
    · show ((([] : List Task) ++ [(seed, 0)]).map Prod.snd).Pairwise (· ≤ ·)
      simp
    · show ∀ a ∈ ([] : List Task) ++ [(seed, 0)], ∀ b ∈ ([] : List Task) ++ [(seed, 0)],
        a.2 ≤ b.2 + 1
      simp

/-- C4, counterexample.  The seed is admitted verbatim, without
normalization; a seed carrying a query string and a discovered link equal to
its normalized form are recorded as two different entries in two different
depth buckets although they normalize identically. -/
theorem duplicate_modulo_normalization :
    (crawl_domain cfgDefault wDup initState "http://a.test/?q=1").2 =
      .ok [(0, ["http://a.test/?q=1"]), (1, ["http://a.test/"])] ∧
    normalize_url "http://a.test/?q=1" = normalize_url "http://a.test/" ∧
    ("http://a.test/?q=1" : String) ≠ "http://a.test/" := by
  refine ⟨rfl, rfl, ?_⟩
  decide

/-- C4, amended: the depth buckets of a domain crawl from a fresh crawler
never hold the same URL string twice (visited-at-dequeue dedup), and any two
distinct recorded URLs can only normalize identically when one of them is
the seed, which is recorded verbatim: every non-seed recorded URL is itself
a normalize_url fixpoint, so among non-seed entries normalization-equality
implies equality. -/
theorem no_duplicate_visitation_amended (cfg : Config) (w : World) (seed : String)
    (disc : Disc) (h : (crawl_domain cfg w initState seed).2 = .ok disc) :
    (discUrls disc).Nodup ∧
    ∀ u1 ∈ discUrls disc, ∀ u2 ∈ discUrls disc,
      u1 ≠ seed → u2 ≠ seed → normalize_url u1 = normalize_url u2 → u1 = u2 := by
  have hcd : (crawl_domain cfg w initState seed).2 =
      (crawlDomainFull cfg w initState seed).2.2 := rfl
  cases hg : get_domain seed with
  | error e =>
    rw [crawlDomainFull_error cfg w initState seed e hg] at hcd
    rw [hcd] at h
    exact absurd h (by simp)
  | ok domain =>
    rw [crawlDomainFull_resolve cfg w initState seed domain hg] at hcd
    rw [hcd, crawlAssemble_ok] at h
    have hloop := crawlLoop_dedup cfg w domain seed (cfg.max_pages_per_domain + 1)
      (lookupQueue initState domain ++ [(seed, 0)]) initState.visited_urls
      (lookupCount initState domain) [] []
      (by
        intro t ht
        have ht2 : t = (seed, 0) := by
          simpa [initState, lookupQueue, alookup] using ht
        rw [ht2]
        exact Or.inl rfl)
      (by intro x hx; simp [discUrls] at hx)
      (by simp [discUrls])
      (by intro x hx; simp [discUrls] at hx)
    rw [h.2] at hloop
    refine ⟨hloop.1, ?_⟩
    intro u1 h1 u2 h2 hs1 hs2 heq
    rcases hloop.2 u1 h1 with h3 | h3
    · exact absurd h3 hs1
    · rcases hloop.2 u2 h2 with h4 | h4
      · exact absurd h4 hs2
      · have h5 : (Except.ok u1 : Except String String) = Except.ok u2 := by
          rw [← h3, ← h4]
          exact heq
        injection h5

/-- C4, amended, witness: the dedup theorem applied to the crawl whose
result holds the verbatim seed at depth 0 and its normalized twin at
depth 1 — distinct entries, and the only normalization collision involves
the seed. -/
theorem no_duplicate_visitation_amended_witness :
    (crawl_domain cfgDefault wDup initState "http://a.test/?q=1").2 =
      .ok [(0, ["http://a.test/?q=1"]), (1, ["http://a.test/"])] ∧
    ((discUrls [(0, ["http://a.test/?q=1"]), (1, ["http://a.test/"])]).Nodup ∧
     ∀ u1 ∈ discUrls [(0, ["http://a.test/?q=1"]), (1, ["http://a.test/"])],
       ∀ u2 ∈ discUrls [(0, ["http://a.test/?q=1"]), (1, ["http://a.test/"])],
       u1 ≠ "http://a.test/?q=1" → u2 ≠ "http://a.test/?q=1" →
       normalize_url u1 = normalize_url u2 → u1 = u2) :=
  ⟨rfl, no_duplicate_visitation_amended cfgDefault wDup "http://a.test/?q=1" _ rfl⟩

/-- C5, counterexample.  When the crawl of a.test dies on a fault, the
orchestrator does not record an empty result under "a.test": the returned
mapping has no entry for "a.test" at all, while "b.test" keeps its result. -/
theorem failed_domain_omitted :
    crawl_multiple_domains cfgDefault wFault initState
        ["http://a.test/", "http://b.test/"] =
      .ok [("b.test", [(0, ["http://b.test/"])])] ∧
    ∀ m, crawl_multiple_domains cfgDefault wFault initState
        ["http://a.test/", "http://b.test/"] = .ok m →
      alookup m "a.test" = none := by
  refine ⟨rfl, ?_⟩
  intro m hm
  have : m = [("b.test", [(0, ["http://b.test/"])])] := by
    have h2 : Except.ok (ε := String) m =
        .ok [("b.test", [(0, ["http://b.test/"])])] := by
      rw [← hm]; rfl
    simpa using h2
  subst this
  rfl

/-- C5, amended: the orchestrator runs a crawl for every grouped domain —
the gathered result list covers the grouped domains exactly, in order, so a
fault in one domain does not abort the remaining crawls — but a domain
whose crawl fails is dropped from the returned mapping: the mapping keeps
exactly the ok entries, and no key with an empty result is recorded for the
failed domain. -/
theorem fault_isolation_amended (cfg : Config) (w : World) (st : CrawlerState)
    (urls : List String) (gps : List (String × String))
    (hg : groupByDomain urls [] = .ok gps) :
    (gatherCrawls cfg w st gps).map Prod.fst = gps.map Prod.fst ∧
    crawl_multiple_domains cfg w st urls =
      .ok ((gatherCrawls cfg w st gps).filterMap fun pr =>
        match pr.2 with
        | .ok r => some (pr.1, r)
        | .error _ => none) := by
  constructor
  · exact gatherCrawls_domains cfg w gps st
  · rw [crawl_multiple_eq_ok cfg w st urls gps hg, collectResults_filterMap]

/-- C5, amended, witness: the fan-out theorem applied to the two-domain
fault world, where a.test dies on a CancelledError-style fault and b.test
answers; both domains are crawled, only b.test is keyed in the mapping. -/
theorem fault_isolation_amended_witness :
    groupByDomain ["http://a.test/", "http://b.test/"] [] =
      .ok [("a.test", "http://a.test/"), ("b.test", "http://b.test/")] ∧
    ((gatherCrawls cfgDefault wFault initState
        [("a.test", "http://a.test/"), ("b.test", "http://b.test/")]).map Prod.fst =
      [("a.test", "http://a.test/"), ("b.test", "http://b.test/")].map Prod.fst ∧
     crawl_multiple_domains cfgDefault wFault initState
        ["http://a.test/", "http://b.test/"] =
      .ok ((gatherCrawls cfgDefault wFault initState
          [("a.test", "http://a.test/"), ("b.test", "http://b.test/")]).filterMap
        fun pr =>
          match pr.2 with
          | .ok r => some (pr.1, r)
          | .error _ => none)) :=
  ⟨rfl, fault_isolation_amended cfgDefault wFault initState
    ["http://a.test/", "http://b.test/"]
    [("a.test", "http://a.test/"), ("b.test", "http://b.test/")] rfl⟩

/-- C6, counterexample.  An empty seed list is not rejected: the call
returns an empty mapping without failing.  A non-empty seed list can make
the whole call fail: domain extraction of a malformed seed raises before
any crawl is launched. -/
theorem empty_seed_not_rejected :
    crawl_multiple_domains cfgDefault wQuiet initState [] = .ok [] ∧
    crawl_multiple_domains cfgDefault wQuiet initState ["http://[::1"] =
      .error "Invalid IPv6 URL" := by
  exact ⟨rfl, rfl⟩

/-- C6, amended: an empty seed list is accepted, not rejected — the call
returns the empty mapping for every configuration, world and state; and the
whole operation fails exactly when domain extraction raises on some seed
(get_domain is called outside any try), so with every seed parseable the
call always returns a mapping. -/
theorem empty_seed_accepted (cfg : Config) (w : World) (st : CrawlerState)
    (urls : List String) :
    crawl_multiple_domains cfg w st [] = .ok [] ∧
    ((∃ m, crawl_multiple_domains cfg w st urls = .ok m) ↔
      ∀ u ∈ urls, ∃ d, get_domain u = .ok d) := by
  constructor
  · rfl
  · constructor
    · rintro ⟨m, hm⟩
      match hg : groupByDomain urls [] with
      | .ok gps => exact (groupByDomain_ok_iff urls []).mp ⟨gps, hg⟩
      | .error e =>
        rw [crawl_multiple_eq_err cfg w st urls e hg] at hm
        exact absurd hm (by simp)
    · intro hall
      obtain ⟨gps, hg⟩ := (groupByDomain_ok_iff urls []).mpr hall
      exact ⟨_, crawl_multiple_eq_ok cfg w st urls gps hg⟩

/-! ## C9: normalization idempotence, counterexample -/

/-- C9, counterexample.  normalize_url is not idempotent: a parse with an
empty netloc can leave a path beginning with a double slash, and re-applying
normalize_url then consumes two more characters as a (new, empty) netloc.
Concretely normalize_url collapses "//////x" to "////x" and "////x" further
to "//x". -/
theorem normalize_url_not_idempotent :
    normalize_url "//////x" = .ok "////x" ∧
    normalize_url "////x" = .ok "//x" ∧
    ("//x" : String) ≠ "////x" := by
  refine ⟨rfl, rfl, ?_⟩
  decide

/-- C9, amended: normalize_url is idempotent on every URL whose parse has a
non-empty network location or a path that does not begin with two slashes;
whenever urlparse succeeds with such parts and normalize_url returns a
result, normalizing that result returns it unchanged. -/
theorem normalize_url_conditional_idempotent (u v : String) (r : ParseResult)
    (hr : urlparseE u.data = .ok r)
    (h : normalize_url u = .ok v)
    (hcond : r.netloc ≠ [] ∨ r.path.take 2 ≠ ['/', '/']) :
    normalize_url v = .ok v := by
  unfold normalize_url at h ⊢
  match hn : normList u.data with
  | .error e =>
    rw [hn] at h
    exact absurd h (by simp [Except.map])
  | .ok l =>
    rw [hn] at h
    have h2 : Except.ok (String.mk l) = Except.ok v := h
    injection h2 with h2
    subst h2
    have hfix : normList l = .ok l := normList_fixpoint u.data l r hr hn hcond
    show Except.map (fun l => String.mk l) (normList (String.mk l).data) =
      Except.ok (String.mk l)
    rw [show (String.mk l).data = l from rfl, hfix]
    rfl

/-- C9, amended, witness: the conditional idempotence theorem applied to a
URL with a query and fragment; its normal form has a non-empty netloc and
normalizes to itself. -/
theorem normalize_url_conditional_idempotent_witness :
    normalize_url "http://x/a?q=1#f" = .ok "http://x/a" ∧
    normalize_url "http://x/a" = .ok "http://x/a" :=
  ⟨rfl,
   normalize_url_conditional_idempotent "http://x/a?q=1#f" "http://x/a"
     ⟨"http".data, "x".data, "/a".data, [], "q=1".data, "f".data⟩
     rfl rfl (Or.inl (by decide))⟩

end GSearch
